import Mathlib

/-!
Verification of the go-stree segment-tree library (sequential `stree`,
parallel `multi`/mtree, and the brute-force `serial` oracle).

Shallow embedding conventions:
* Go `int` is modelled as `Int` (the only arithmetic performed on endpoint
  values is comparison, plus one `+ 1` in `Dedup` whose wrap-around at the
  64-bit boundary does not change the branch taken, so unbounded integers are
  faithful).
* A Go `*node` pointer is modelled by the inductive `tree`: the `nil` pointer
  is `tree.nil`, a non-nil node carries its segment, both child pointers and
  the overlap list.  Mutation of the overlap lists during interval insertion
  is modelled by tree-rebuilding functions.
* Go panics are modelled with `Except GoPanic`.
* Interval ids are `Nat` (the `count` field only ever increments from 0).
* The parallel (goroutine) variants of build / insert / query in package
  multi compute the same tree and the same id-keyed result map as their
  sequential skeletons (locks protect appends, the result maps are merged by
  id); scheduling only permutes list orders.  They are therefore embedded by
  the same recursions, in deterministic order; all claims below are stated
  about id-sets or membership, which scheduling cannot affect.
-/

namespace GoStree

/-- Segment from stree.go: closed range with fields From/To. -/
structure Segment where
  From : Int
  To : Int
deriving DecidableEq, Repr

/-- Interval from stree.go: unique id plus embedded Segment. -/
structure Interval where
  Id : Nat
  seg : Segment
deriving DecidableEq, Repr

/-- Relation constants from stree.go (iota block). -/
def SUBSET : Nat := 0

/-- Relation constant DISJOINT from stree.go. -/
def DISJOINT : Nat := 1

/-- Relation constant INTERSECT_OR_SUPERSET from stree.go. -/
def INTERSECT_OR_SUPERSET : Nat := 2

/-- `Segment.CompareTo` from stree.go (old revision, still used by multi.go):
returns DISJOINT, SUBSET or INTERSECT_OR_SUPERSET. -/
def Segment.CompareTo (s other : Segment) : Nat :=
  if other.From > s.To ∨ other.To < s.From then DISJOINT
  else if other.From ≤ s.From ∧ other.To ≥ s.To then SUBSET
  else INTERSECT_OR_SUPERSET

/-- `Segment.Disjoint` from stree.go: true if the segment does not overlap
the query range [a,b]. -/
def Segment.Disjoint (s : Segment) (a b : Int) : Bool :=
  a > s.To || b < s.From

/-- `Segment.subsetOf` from stree.go (current revision). -/
def Segment.subsetOf (s other : Segment) : Bool :=
  other.From ≤ s.From && other.To ≥ s.To

/-- `Segment.intersectsWith` from stree.go (current revision). -/
def Segment.intersectsWith (s other : Segment) : Bool :=
  (other.From ≤ s.To && s.From ≤ other.To) || (s.From ≤ other.To && other.From ≤ s.To)

/-- The node graph: `nil` models a nil `*node`; `node` carries segment, left
and right child pointers and the overlap list, exactly the fields of Go
`node` (stree.go) and `mnode` (multi.go, minus its mutex, which only guards
the concurrent append). -/
inductive tree where
  | nil : tree
  | node (segment : Segment) (left right : tree) (overlap : List Interval) : tree
deriving DecidableEq, Repr

/-- Whether the node pointer is nil. -/
def tree.isNil : tree → Bool
  | .nil => true
  | .node _ _ _ _ => false

/-- Segment of a node (dummy value for nil, never used on nil). -/
def tree.sg : tree → Segment
  | .nil => ⟨0, 0⟩
  | .node s _ _ _ => s

/-- Left child pointer. -/
def tree.leftOf : tree → tree
  | .nil => .nil
  | .node _ l _ _ => l

/-- Right child pointer. -/
def tree.rightOf : tree → tree
  | .nil => .nil
  | .node _ _ r _ => r

/-- Overlap list of a node. -/
def tree.ovOf : tree → List Interval
  | .nil => []
  | .node _ _ _ ov => ov

/-- All (non-nil) nodes of a tree, the node itself first. -/
def subtrees : tree → List tree
  | .nil => []
  | .node s l r ov => tree.node s l r ov :: (subtrees l ++ subtrees r)

/-- Leaf segments of a tree in left-to-right index order (a leaf is a node
with two nil children). -/
def treeLeaves : tree → List Segment
  | .nil => []
  | .node s l r _ =>
    if l.isNil && r.isNil then [s] else treeLeaves l ++ treeLeaves r

/-- The helper loop inside `Dedup` (stree.go): keep a value when it differs
from the previously kept one; the input is already sorted. -/
def dedupGo (prev : Int) : List Int → List Int
  | [] => []
  | v :: rest => if v ≠ prev then v :: dedupGo v rest else dedupGo prev rest

/-- `Dedup` from stree.go: sort (sort.Sort on IntSlice) then remove
duplicates with a previous-value scan seeded with `sl[0] + 1`. -/
def Dedup (sl : List Int) : List Int :=
  match List.insertionSort (· ≤ ·) sl with
  | [] => []
  | x :: rest => dedupGo (x + 1) (x :: rest)

/-- The endpoint slice built at the start of `Endpoints` (stree.go):
position i holds base[i].From, position i+len holds base[i].To. -/
def endpointValues (base : List Interval) : List Int :=
  base.map (fun i => i.seg.From) ++ base.map (fun i => i.seg.To)

/-- `Endpoints` from stree.go: sorted unique endpoint list plus min
(its first element) and max (its last element). -/
def Endpoints (base : List Interval) : List Int × Int × Int :=
  let result := Dedup (endpointValues base)
  (result, result.getD 0 0, result.getD (result.length - 1) 0)

/-- `elementaryIntervals` from stree.go (current revision): a slice of
length 2k-1 where slot 2i is the point segment of endpoint i and slot 2i+1
the gap segment between endpoints i and i+1. -/
def elementaryIntervals (endpoints : List Int) : List Segment :=
  if endpoints.length = 1 then [⟨endpoints.getD 0 0, endpoints.getD 0 0⟩]
  else
    (List.range (endpoints.length * 2 - 1)).map (fun j =>
      if j % 2 = 0 then ⟨endpoints.getD (j / 2) 0, endpoints.getD (j / 2) 0⟩
      else ⟨endpoints.getD (j / 2) 0, endpoints.getD (j / 2 + 1) 0⟩)

/-- `stree.insertNodes` from stree.go (current revision): splits the leaf
slice at its midpoint index; a single leaf becomes a childless node. -/
def insertNodes (leaves : List Segment) : tree :=
  match leaves with
  | [] => .nil
  | [s] => .node s .nil .nil []
  | s1 :: s2 :: rest =>
    let l := s1 :: s2 :: rest
    let center := l.length / 2
    tree.node ⟨s1.From, (l.getLast (by simp)).To⟩
      (insertNodes (l.take center)) (insertNodes (l.drop center)) []
termination_by leaves.length
decreasing_by
  · simp only [List.length_take, List.length_cons]
    omega
  · simp only [List.length_drop, List.length_cons]
    omega

/-- `mtree.insertNodes` from multi.go: builds directly from the endpoint
slice, splitting at center+1, with a special two-endpoint case that only
creates children when the right endpoint is not the global max.  The `level`
parameter only decides which recursive calls run in their own goroutine
(`insertNodesAsync` writes the identical subtree into the child slot), so it
is dropped here. -/
def minsertNodes (mx : Int) (endpoint : List Int) : tree :=
  match endpoint with
  | [] => .nil
  | [e] => .node ⟨e, e⟩ .nil .nil []
  | [e0, e1] =>
    if e1 ≠ mx then
      .node ⟨e0, e1⟩ (.node ⟨e0, e0⟩ .nil .nil []) (.node ⟨e1, e1⟩ .nil .nil []) []
    else .node ⟨e0, e1⟩ .nil .nil []
  | e0 :: e1 :: e2 :: rest =>
    let l := e0 :: e1 :: e2 :: rest
    let center := l.length / 2
    tree.node ⟨e0, l.getLast (by simp)⟩
      (minsertNodes mx (l.take (center + 1))) (minsertNodes mx (l.drop (center + 1))) []
termination_by endpoint.length
decreasing_by
  · simp only [List.length_take, List.length_cons]
    omega
  · simp only [List.length_drop, List.length_cons]
    omega

/-- `insertInterval` from stree.go (current revision): attach at a subset
node, otherwise descend into each non-nil child whose segment intersects the
interval.  The Go mutation of `node.overlap` is modelled by rebuilding the
tree. -/
def insertInterval (t : tree) (i : Interval) : tree :=
  match t with
  | .nil => .nil
  | .node s l r ov =>
    if s.subsetOf i.seg then .node s l r (ov ++ [i])
    else
      tree.node s
        (if !l.isNil && l.sg.intersectsWith i.seg then insertInterval l i else l)
        (if !r.isNil && r.sg.intersectsWith i.seg then insertInterval r i else r)
        ov

/-- `insertInterval` in its CompareTo formulation (old stree.go revision;
also `mtree.insertInterval` in multi.go, whose per-node lock only serialises
the append): DISJOINT does nothing, SUBSET attaches, otherwise descend into
every non-nil child. -/
def insertIntervalCmp (t : tree) (i : Interval) : tree :=
  match t with
  | .nil => .nil
  | .node s l r ov =>
    if s.CompareTo i.seg = SUBSET then .node s l r (ov ++ [i])
    else if s.CompareTo i.seg = INTERSECT_OR_SUPERSET then
      tree.node s
        (if l.isNil then l else insertIntervalCmp l i)
        (if r.isNil then r else insertIntervalCmp r i)
        ov
    else .node s l r ov

/-- `querySingle` from stree.go: collect the overlap list of every node not
disjoint from [a,b], right subtree first.  The Go accumulator is a map keyed
by interval id; the list collects the same entries, so the id-set of the map
is the id-set of this list.  multi.go `querySingle` visits the same nodes
(goroutines only split the accumulator, which `collect` re-merges by id). -/
def querySingle (t : tree) (a b : Int) : List Interval :=
  match t with
  | .nil => []
  | .node s l r ov =>
    if !(s.Disjoint a b) then ov ++ querySingle r a b ++ querySingle l a b
    else []

/-- `queryMulti` from stree.go: the batched query carries the list of
(from,to) ranges; at a node it keeps the ranges hitting the segment, adds
the overlap list when at least one range hits, and descends with the
filtered ranges. -/
def queryMulti (t : tree) (qs : List (Int × Int)) : List Interval :=
  match t with
  | .nil => []
  | .node s l r ov =>
    let hits := qs.filter (fun q => !(s.Disjoint q.1 q.2))
    if hits.isEmpty then []
    else ov ++ queryMulti r hits ++ queryMulti l hits

/-- `queryMulti` from multi.go: same hit computation and the same
non-empty-hits gate, but the recursive calls receive the ORIGINAL
unfiltered `from`/`to` slices (multi.go lines 374/377/385/387), not
`hitsFrom`/`hitsTo`. -/
def mqueryMulti (t : tree) (qs : List (Int × Int)) : List Interval :=
  match t with
  | .nil => []
  | .node s l r ov =>
    let hits := qs.filter (fun q => !(s.Disjoint q.1 q.2))
    if hits.isEmpty then []
    else ov ++ mqueryMulti r qs ++ mqueryMulti l qs

/-- Instrumentation of stree.go `queryMulti`: the list of range-slices
passed to the recursive calls, in call order (right child first). -/
def queryMultiCalls (t : tree) (qs : List (Int × Int)) : List (List (Int × Int)) :=
  match t with
  | .nil => []
  | .node s l r _ =>
    let hits := qs.filter (fun q => !(s.Disjoint q.1 q.2))
    if hits.isEmpty then []
    else
      (if r.isNil then [] else hits :: queryMultiCalls r hits) ++
      (if l.isNil then [] else hits :: queryMultiCalls l hits)

/-- Instrumentation of multi.go `queryMulti`: the list of range-slices
passed to the recursive calls, in call order (right child first); the code
passes the unfiltered `from`/`to` slices. -/
def mqueryMultiCalls (t : tree) (qs : List (Int × Int)) : List (List (Int × Int)) :=
  match t with
  | .nil => []
  | .node s l r _ =>
    let hits := qs.filter (fun q => !(s.Disjoint q.1 q.2))
    if hits.isEmpty then []
    else
      (if r.isNil then [] else qs :: mqueryMultiCalls r qs) ++
      (if l.isNil then [] else qs :: mqueryMultiCalls l qs)

/-- `serial.Query` from serial.go: linear scan of the staged intervals. -/
def serialQuery (base : List Interval) (a b : Int) : List Interval :=
  base.filter (fun i => !(i.seg.Disjoint a b))

/-- `serial.QueryArray` from serial.go: concatenation of the per-range
linear scans, without any id deduplication. -/
def serialQueryArray (base : List Interval) (qs : List (Int × Int)) : List Interval :=
  (qs.map (fun q => serialQuery base q.1 q.2)).flatten

/-- The staged interval stack produced by `Push`ing the given ranges in
order into a cleared tree: ids count up from 0 (stree.go `Push`). -/
def stage (rs : List (Int × Int)) : List Interval :=
  rs.enum.map (fun p => ⟨p.1, ⟨p.2.1, p.2.2⟩⟩)

/-- The root built by `stree.BuildTree` (current revision) for a staged
stack: elementary intervals of the sorted unique endpoints, midpoint tree,
then each staged interval inserted in stack order. -/
def buildTreeRoot (base : List Interval) : tree :=
  base.foldl insertInterval (insertNodes (elementaryIntervals (Endpoints base).1))

/-- The root built by `mtree.BuildTree` (multi.go) for a staged stack: the
endpoint-splitting node builder with the global max, then each staged
interval inserted with the CompareTo inserter.  The parallel dispatch
(`insertIntervalM`) inserts the same intervals into the same tree, each
append lock-protected; only the order of appends within one overlap list is
schedule-dependent, so stack order is used here. -/
def mbuildTreeRoot (base : List Interval) : tree :=
  let ep := Endpoints base
  base.foldl insertIntervalCmp (minsertNodes ep.2.2 ep.1)

/-- Id-set of a query result list (Go accumulates results in a map keyed by
interval id, so the observable result identity is this set). -/
def idset (l : List Interval) : Finset ℕ :=
  (l.map (fun i => i.Id)).toFinset

/-- Integer membership in a closed segment. -/
def inSeg (x : Int) (s : Segment) : Bool :=
  s.From ≤ x && x ≤ s.To

/-- The Go panics that occur in the repository, used as the error type of
the `Except`-valued operations below. -/
inductive GoPanic where
  | emptyStack
  | noRoot
  | buildNotSupported
  | printNotSupported
  | tree2ArrayNotSupported
deriving DecidableEq, Repr

/-- The `stree` struct from stree.go: interval counter, optional root,
staged interval stack, cached min and max. -/
structure Stree where
  count : Nat
  root : Option tree
  base : List Interval
  min : Int
  max : Int
deriving DecidableEq, Repr

/-- `stree.Clear`: reset counter, root, stack and cached bounds. -/
def Stree.Clear (_t : Stree) : Stree :=
  ⟨0, none, [], 0, 0⟩

/-- `stree.Push`: append an interval carrying the next counter value. -/
def Stree.Push (t : Stree) (a b : Int) : Stree :=
  { t with base := t.base ++ [⟨t.count, ⟨a, b⟩⟩], count := t.count + 1 }

/-- `stree.PushArray`: push the ranges in order. -/
def Stree.PushArray (t : Stree) (rs : List (Int × Int)) : Stree :=
  rs.foldl (fun s p => s.Push p.1 p.2) t

/-- `stree.BuildTree` (current revision): panics on an empty stack,
otherwise caches min/max and stores the canonical tree as root. -/
def Stree.BuildTree (t : Stree) : Except GoPanic Stree :=
  if t.base.isEmpty then .error .emptyStack
  else
    let ep := Endpoints t.base
    .ok { t with min := ep.2.1, max := ep.2.2, root := some (buildTreeRoot t.base) }

/-- State-threaded embedding of stree.go `querySingle`: the traversal
returns both the collected overlap entries and the tree it leaves behind;
the source performs no assignment to any node field, so the returned tree
is rebuilt from exactly the fields that were read. -/
def querySingleSt (t : tree) (a b : Int) : List Interval × tree :=
  match t with
  | .nil => ([], .nil)
  | .node s l r ov =>
    if !(s.Disjoint a b) then
      let pr := querySingleSt r a b
      let pl := querySingleSt l a b
      (ov ++ pr.1 ++ pl.1, .node s pl.2 pr.2 ov)
    else ([], .node s l r ov)

/-- State-threaded embedding of stree.go `queryMulti`, as `querySingleSt`. -/
def queryMultiSt (t : tree) (qs : List (Int × Int)) : List Interval × tree :=
  match t with
  | .nil => ([], .nil)
  | .node s l r ov =>
    let hits := qs.filter (fun q => !(s.Disjoint q.1 q.2))
    if hits.isEmpty then ([], .node s l r ov)
    else
      let pr := queryMultiSt r hits
      let pl := queryMultiSt l hits
      (ov ++ pr.1 ++ pl.1, .node s pl.2 pr.2 ov)

/-- `stree.Query`: panics without a root, otherwise runs `querySingle` on
the root and returns the collected result (Go: the values of the id-keyed
map) together with the post-call state. -/
def Stree.Query (t : Stree) (a b : Int) : Except GoPanic (List Interval × Stree) :=
  match t.root with
  | none => .error .noRoot
  | some rt =>
    let p := querySingleSt rt a b
    .ok (p.1, { t with root := some p.2 })

/-- `stree.QueryArray`: panics without a root, otherwise runs `queryMulti`
on the root. -/
def Stree.QueryArray (t : Stree) (qs : List (Int × Int)) :
    Except GoPanic (List Interval × Stree) :=
  match t.root with
  | none => .error .noRoot
  | some rt =>
    let p := queryMultiSt rt qs
    .ok (p.1, { t with root := some p.2 })

/-- The `mtree` struct from multi.go (the channels and goroutine counters
only orchestrate scheduling and are omitted; `single` is the sequential
fallback flag). -/
structure Mtree where
  count : Nat
  root : Option tree
  base : List Interval
  min : Int
  max : Int
  single : Bool
deriving DecidableEq, Repr

/-- `mtree.BuildTree`: panics on an empty stack; sets the fallback flag
when fewer than numG*10 = 640 endpoints; builds with the endpoint-splitting
node builder and the CompareTo inserter (both the goroutine path and the
fallback path insert every staged interval into the same node structure). -/
def Mtree.BuildTree (t : Mtree) : Except GoPanic Mtree :=
  if t.base.isEmpty then .error .emptyStack
  else
    let ep := Endpoints t.base
    .ok { t with min := ep.2.1, max := ep.2.2,
                 single := decide (ep.1.length < 640),
                 root := some (mbuildTreeRoot t.base) }

/-- State-threaded embedding of multi.go `querySingle` (the parallel tree
walker): at a non-disjoint node it reads segment and overlap, then enters
the non-nil children (right first); each visited node is returned rebuilt
from exactly the fields that were read, because the walker writes only into
the id-keyed result maps, never into a node.  The goroutine dispatch
(`select` on `tw.queue`) only decides which partial map collects a child
call; `collect` re-merges the maps by id, so the id-set of the result and
the traversal itself are schedule-independent. -/
def mquerySingleSt (t : tree) (a b : Int) : List Interval × tree :=
  match t with
  | .nil => ([], .nil)
  | .node s l r ov =>
    if !(s.Disjoint a b) then
      let pr := mquerySingleSt r a b
      let pl := mquerySingleSt l a b
      (ov ++ pr.1 ++ pl.1, .node s pl.2 pr.2 ov)
    else ([], .node s l r ov)

/-- State-threaded embedding of multi.go `queryMulti`: same hit
computation and non-empty-hits gate as the sequential variant, but the
recursive calls receive the original unfiltered range list (the
`mqueryMulti` recursion); like `mquerySingleSt`, the walker writes only
into result maps, so each node is returned rebuilt from the fields that
were read. -/
def mqueryMultiSt (t : tree) (qs : List (Int × Int)) : List Interval × tree :=
  match t with
  | .nil => ([], .nil)
  | .node s l r ov =>
    let hits := qs.filter (fun q => !(s.Disjoint q.1 q.2))
    if hits.isEmpty then ([], .node s l r ov)
    else
      let pr := mqueryMultiSt r qs
      let pl := mqueryMultiSt l qs
      (ov ++ pr.1 ++ pl.1, .node s pl.2 pr.2 ov)

/-- `mtree.Query` from multi.go: panics without a root; the parallel tree
walker visits exactly the nodes of `querySingle` and merges the partial
maps by id; the post-call state carries the node graph the walker leaves
behind. -/
def Mtree.Query (t : Mtree) (a b : Int) : Except GoPanic (List Interval × Mtree) :=
  match t.root with
  | none => .error .noRoot
  | some rt =>
    let p := mquerySingleSt rt a b
    .ok (p.1, { t with root := some p.2 })

/-- `mtree.QueryArray` from multi.go: panics without a root; otherwise the
parallel `queryMulti`, with the post-call state it leaves behind. -/
def Mtree.QueryArray (t : Mtree) (qs : List (Int × Int)) :
    Except GoPanic (List Interval × Mtree) :=
  match t.root with
  | none => .error .noRoot
  | some rt =>
    let p := mqueryMultiSt rt qs
    .ok (p.1, { t with root := some p.2 })

/-- `SegmentOverlap` from stree.go. -/
structure SegmentOverlap where
  sgmt : Segment
  intervals : List Interval
deriving DecidableEq, Repr

/-- The `serial` struct from serial.go (it embeds `stree`). -/
structure Serial where
  count : Nat
  root : Option tree
  base : List Interval
  min : Int
  max : Int
deriving DecidableEq, Repr

/-- `serial.BuildTree`: always panics, the serial structure has no tree. -/
def Serial.BuildTree (_t : Serial) : Except GoPanic Serial :=
  .error .buildNotSupported

/-- `serial.Print`: always panics. -/
def Serial.Print (_t : Serial) : Except GoPanic Unit :=
  .error .printNotSupported

/-- `serial.Tree2Array`: always panics. -/
def Serial.Tree2Array (_t : Serial) : Except GoPanic (List SegmentOverlap) :=
  .error .tree2ArrayNotSupported

/-- `serial.Query`: linear scan of the staged stack, no precondition. -/
def Serial.Query (t : Serial) (a b : Int) : Except GoPanic (List Interval) :=
  .ok (serialQuery t.base a b)

/-- `serial.QueryArray`: concatenated per-range scans, no precondition. -/
def Serial.QueryArray (t : Serial) (qs : List (Int × Int)) :
    Except GoPanic (List Interval) :=
  .ok (serialQueryArray t.base qs)

/-- The canonical alternating leaf sequence described by the spec
(comparison definition for claim C2): [p1,p1],[p1,p2],[p2,p2],...,[pk,pk]. -/
def altLeaves : List Int → List Segment
  | [] => []
  | [p] => [⟨p, p⟩]
  | p :: q :: rest => ⟨p, p⟩ :: ⟨p, q⟩ :: altLeaves (q :: rest)

/-- Every node of the tree has zero or two children. -/
def ZeroTwo : tree → Prop
  | .nil => True
  | .node _ l r _ =>
    ((l = .nil ∧ r = .nil) ∨ (l ≠ .nil ∧ r ≠ .nil)) ∧ ZeroTwo l ∧ ZeroTwo r

/-- The structural invariant claimed for built trees: each node has zero or
two children; with two children there is no gap between the coverage of the
left child and that of the right child; and the segment of each node covers
exactly the integers covered by some descendant leaf. -/
def Inv : tree → Prop
  | .nil => True
  | .node s l r ov =>
    ((l = .nil ∧ r = .nil) ∨ (l ≠ .nil ∧ r ≠ .nil ∧ l.sg.To = r.sg.From)) ∧
    (∀ x : Int, inSeg x s ↔ ∃ sgm ∈ treeLeaves (.node s l r ov), inSeg x sgm) ∧
    Inv l ∧ Inv r

/-- Every attached interval contains the segment of its node. -/
def SubsetInv (t : tree) : Prop :=
  ∀ sub ∈ subtrees t, ∀ j ∈ sub.ovOf, sub.sg.subsetOf j.seg = true

/-- The interval appears in some overlap list of the tree. -/
def Occurs (i : Interval) (t : tree) : Prop :=
  ∃ sub ∈ subtrees t, i ∈ sub.ovOf

/-- No node holding the interval has a strict descendant holding it. -/
def NoDescHolds (i : Interval) (t : tree) : Prop :=
  ∀ sub ∈ subtrees t, i ∈ sub.ovOf →
    ∀ sub2 ∈ subtrees sub.leftOf ++ subtrees sub.rightOf, i ∉ sub2.ovOf

/-- Every segment in the tree is a well-formed closed range. -/
def validSegs : tree → Prop
  | .nil => True
  | .node s l r _ => s.From ≤ s.To ∧ validSegs l ∧ validSegs r

/-- The segment of each child is contained in the segment of its parent. -/
def childrenSub : tree → Prop
  | .nil => True
  | .node s l r _ =>
    (l ≠ .nil → s.From ≤ l.sg.From ∧ l.sg.To ≤ s.To) ∧
    (r ≠ .nil → s.From ≤ r.sg.From ∧ r.sg.To ≤ s.To) ∧
    childrenSub l ∧ childrenSub r

/-- All overlap lists of the tree are empty. -/
def AllOvEmpty (t : tree) : Prop :=
  ∀ sub ∈ subtrees t, sub.ovOf = []

/-- `InsExt j t u` relates a tree to the possible outcomes of inserting the
interval `j` into it: identical structure and segments, each overlap list
either unchanged or with `j` appended. -/
inductive InsExt (j : Interval) : tree → tree → Prop where
  | nil : InsExt j .nil .nil
  | node (s : Segment) (l l2 r r2 : tree) (ov ov2 : List Interval) :
      (ov2 = ov ∨ ov2 = ov ++ [j]) → InsExt j l l2 → InsExt j r r2 →
      InsExt j (.node s l r ov) (.node s l2 r2 ov2)

/-! ### Frame lemmas for the query traversals -/

theorem querySingleSt_tree (t : tree) (a b : Int) : (querySingleSt t a b).2 = t := by
  induction t with
  | nil => rfl
  | node s l r ov ihl ihr =>
    simp only [querySingleSt]
    split
    · simp [ihl, ihr]
    · rfl

theorem queryMultiSt_tree (t : tree) : ∀ qs, (queryMultiSt t qs).2 = t := by
  induction t with
  | nil => intro qs; rfl
  | node s l r ov ihl ihr =>
    intro qs
    simp only [queryMultiSt]
    split
    · rfl
    · simp [ihl, ihr]

theorem mquerySingleSt_tree (t : tree) (a b : Int) : (mquerySingleSt t a b).2 = t := by
  induction t with
  | nil => rfl
  | node s l r ov ihl ihr =>
    simp only [mquerySingleSt]
    split
    · simp [ihl, ihr]
    · rfl

theorem mqueryMultiSt_tree (t : tree) : ∀ qs, (mqueryMultiSt t qs).2 = t := by
  induction t with
  | nil => intro qs; rfl
  | node s l r ov ihl ihr =>
    intro qs
    simp only [mqueryMultiSt]
    split
    · rfl
    · simp [ihl, ihr]

theorem mquerySingleSt_fst (t : tree) (a b : Int) :
    (mquerySingleSt t a b).1 = querySingle t a b := by
  induction t with
  | nil => rfl
  | node s l r ov ihl ihr =>
    rw [mquerySingleSt, querySingle]
    split
    · simp [ihl, ihr]
    · rfl

theorem mqueryMultiSt_fst (t : tree) : ∀ qs,
    (mqueryMultiSt t qs).1 = mqueryMulti t qs := by
  induction t with
  | nil => intro qs; rfl
  | node s l r ov ihl ihr =>
    intro qs
    rw [mqueryMultiSt, mqueryMulti]
    split
    · rfl
    · simp [ihl, ihr]

/-! ### The elementary decomposition -/

theorem elem_fun_shift (L : List Int) (e : Int) (x : Nat) :
    ((fun j => if j % 2 = 0 then (⟨(e :: L).getD (j / 2) 0, (e :: L).getD (j / 2) 0⟩ : Segment)
        else ⟨(e :: L).getD (j / 2) 0, (e :: L).getD (j / 2 + 1) 0⟩) ∘ (fun x => 2 + x)) x =
    (fun j => if j % 2 = 0 then (⟨L.getD (j / 2) 0, L.getD (j / 2) 0⟩ : Segment)
        else ⟨L.getD (j / 2) 0, L.getD (j / 2 + 1) 0⟩) x := by
  have hmod : (2 + x) % 2 = x % 2 := Nat.add_mod_left 2 x
  have hdiv : (2 + x) / 2 = x / 2 + 1 := by omega
  by_cases hx : x % 2 = 0 <;> simp [Function.comp, hmod, hdiv, hx]

theorem elem_unfold (p q r2 : Int) (rest2 : List Int) :
    elementaryIntervals (p :: q :: r2 :: rest2) =
      ⟨p, p⟩ :: ⟨p, q⟩ :: elementaryIntervals (q :: r2 :: rest2) := by
  have h1 : (p :: q :: r2 :: rest2).length ≠ 1 := by simp
  have h2 : (q :: r2 :: rest2).length ≠ 1 := by simp
  have hlen : (p :: q :: r2 :: rest2).length * 2 - 1
      = 2 + ((q :: r2 :: rest2).length * 2 - 1) := by
    simp only [List.length_cons]
    omega
  simp only [elementaryIntervals]
  rw [if_neg h1, if_neg h2, hlen, List.range_add, List.map_append, List.map_map]
  rw [List.map_congr_left (fun x _ => elem_fun_shift (q :: r2 :: rest2) p x)]
  simp [List.range_succ]

theorem elem_eq_alt : ∀ l : List Int, elementaryIntervals l = altLeaves l
  | [] => rfl
  | [_] => rfl
  | p :: q :: rest => by
    simp only [altLeaves]
    rw [← elem_eq_alt (q :: rest)]
    cases rest with
    | nil => simp [elementaryIntervals, List.range_succ]
    | cons r2 rest2 => exact elem_unfold p q r2 rest2

theorem altLeaves_length : ∀ l : List Int, l ≠ [] → (altLeaves l).length = 2 * l.length - 1
  | [_], _ => rfl
  | p :: q :: rest, _ => by
    have ih := altLeaves_length (q :: rest) (by simp)
    simp only [altLeaves, List.length_cons] at *
    omega

/-! ### Membership in query results -/

theorem mem_idset (n : ℕ) (lst : List Interval) :
    n ∈ idset lst ↔ ∃ i ∈ lst, i.Id = n := by
  simp [idset]

theorem mem_ids_queryMulti (t : tree) :
    ∀ (qs : List (Int × Int)) (n : ℕ),
      n ∈ idset (queryMulti t qs) ↔ ∃ q ∈ qs, n ∈ idset (querySingle t q.1 q.2) := by
  induction t with
  | nil =>
    intro qs n
    simp [queryMulti, querySingle, idset]
  | node s l r ov ihl ihr =>
    intro qs n
    by_cases he : (qs.filter (fun q => !(s.Disjoint q.1 q.2))).isEmpty
    · have hall : ∀ q ∈ qs, s.Disjoint q.1 q.2 = true := by
        intro q hq
        by_contra hd
        have hmem : q ∈ qs.filter (fun q => !(s.Disjoint q.1 q.2)) :=
          List.mem_filter.mpr ⟨hq, by simp [hd]⟩
        rw [List.isEmpty_iff.mp he] at hmem
        exact absurd hmem (List.not_mem_nil q)
      rw [queryMulti]
      simp only [he, if_true]
      constructor
      · intro hn
        simp [idset] at hn
      · rintro ⟨q, hq, hn⟩
        rw [querySingle] at hn
        simp [hall q hq, idset] at hn
    · rw [queryMulti]
      simp only [he, if_false]
      have hiff : ∀ P : (Int × Int) → Prop,
          (∃ q ∈ qs.filter (fun q => !(s.Disjoint q.1 q.2)), P q) ↔
          (∃ q ∈ qs, s.Disjoint q.1 q.2 = false ∧ P q) := by
        intro P
        constructor
        · rintro ⟨q, hq, hp⟩
          rcases List.mem_filter.mp hq with ⟨hq1, hq2⟩
          exact ⟨q, hq1, by simpa using hq2, hp⟩
        · rintro ⟨q, hq, hd, hp⟩
          exact ⟨q, List.mem_filter.mpr ⟨hq, by simp [hd]⟩, hp⟩
      constructor
      · intro hn
        rcases (mem_idset _ _).mp hn with ⟨i, hi, hid⟩
        rcases List.mem_append.mp hi with hi2 | hil
        · rcases List.mem_append.mp hi2 with hiov | hir
          · rcases (by simpa using he :
                ∃ x y, (x, y) ∈ qs ∧ s.Disjoint x y = false) with ⟨qx, qy, hq1, hq2⟩
            refine ⟨(qx, qy), hq1, ?_⟩
            rw [querySingle]
            simp only [hq2]
            exact (mem_idset _ _).mpr ⟨i, by simp [hiov], hid⟩
          · have := (ihr _ n).mp ((mem_idset _ _).mpr ⟨i, hir, hid⟩)
            rcases (hiff _).mp this with ⟨q, hq, hd, hp⟩
            refine ⟨q, hq, ?_⟩
            rw [querySingle]
            simp only [hd]
            rcases (mem_idset _ _).mp hp with ⟨j, hj, hjd⟩
            exact (mem_idset _ _).mpr ⟨j, by simp [hj], hjd⟩
        · have := (ihl _ n).mp ((mem_idset _ _).mpr ⟨i, hil, hid⟩)
          rcases (hiff _).mp this with ⟨q, hq, hd, hp⟩
          refine ⟨q, hq, ?_⟩
          rw [querySingle]
          simp only [hd]
          rcases (mem_idset _ _).mp hp with ⟨j, hj, hjd⟩
          exact (mem_idset _ _).mpr ⟨j, by simp [hj], hjd⟩
      · rintro ⟨q, hq, hn⟩
        rw [querySingle] at hn
        by_cases hd : s.Disjoint q.1 q.2
        · simp [hd, idset] at hn
        · simp only [show s.Disjoint q.1 q.2 = false by simpa using hd] at hn
          simp only [Bool.not_false, if_true] at hn
          rcases (mem_idset _ _).mp hn with ⟨i, hi, hid⟩
          rcases List.mem_append.mp hi with hi2 | hil
          · rcases List.mem_append.mp hi2 with hiov | hir
            · exact (mem_idset _ _).mpr ⟨i, by simp [hiov], hid⟩
            · have hr : n ∈ idset (queryMulti r (qs.filter (fun q => !(s.Disjoint q.1 q.2)))) := by
                refine (ihr _ n).mpr ((hiff _).mpr ⟨q, hq, by simpa using hd, ?_⟩)
                exact (mem_idset _ _).mpr ⟨i, hir, hid⟩
              rcases (mem_idset _ _).mp hr with ⟨j, hj, hjd⟩
              exact (mem_idset _ _).mpr ⟨j, by simp [hj], hjd⟩
          · have hl : n ∈ idset (queryMulti l (qs.filter (fun q => !(s.Disjoint q.1 q.2)))) := by
              refine (ihl _ n).mpr ((hiff _).mpr ⟨q, hq, by simpa using hd, ?_⟩)
              exact (mem_idset _ _).mpr ⟨i, hil, hid⟩
            rcases (mem_idset _ _).mp hl with ⟨j, hj, hjd⟩
            exact (mem_idset _ _).mpr ⟨j, by simp [hj], hjd⟩

/-! ### Basic tree facts -/

theorem isNil_eq_false_iff (t : tree) : t.isNil = false ↔ t ≠ .nil := by
  cases t <;> simp [tree.isNil]

theorem treeLeaves_node (s : Segment) (l r : tree) (ov : List Interval) :
    treeLeaves (.node s l r ov) =
      if l.isNil && r.isNil then [s] else treeLeaves l ++ treeLeaves r := rfl

theorem subtrees_node (s : Segment) (l r : tree) (ov : List Interval) :
    subtrees (.node s l r ov) = tree.node s l r ov :: (subtrees l ++ subtrees r) := rfl

theorem Inv_node (s : Segment) (l r : tree) (ov : List Interval) :
    Inv (.node s l r ov) ↔
      ((l = .nil ∧ r = .nil) ∨ (l ≠ .nil ∧ r ≠ .nil ∧ l.sg.To = r.sg.From)) ∧
      (∀ x : Int, inSeg x s ↔ ∃ sgm ∈ treeLeaves (.node s l r ov), inSeg x sgm) ∧
      Inv l ∧ Inv r := Iff.rfl

/-! ### The insertion-extension relation -/

theorem insExt_refl (j : Interval) : ∀ t : tree, InsExt j t t
  | .nil => .nil
  | .node s l r ov => .node s l l r r ov ov (Or.inl rfl) (insExt_refl j l) (insExt_refl j r)

theorem insExt_insert (j : Interval) : ∀ t : tree, InsExt j t (insertInterval t j)
  | .nil => .nil
  | .node s l r ov => by
    rw [insertInterval]
    split
    · exact .node s l l r r ov _ (Or.inr rfl) (insExt_refl j l) (insExt_refl j r)
    · refine .node s l _ r _ ov ov (Or.inl rfl) ?_ ?_ <;> split
      · exact insExt_insert j l
      · exact insExt_refl j l
      · exact insExt_insert j r
      · exact insExt_refl j r

theorem insExt_insertCmp (j : Interval) : ∀ t : tree, InsExt j t (insertIntervalCmp t j)
  | .nil => .nil
  | .node s l r ov => by
    rw [insertIntervalCmp]
    split
    · exact .node s l l r r ov _ (Or.inr rfl) (insExt_refl j l) (insExt_refl j r)
    split
    · refine .node s l _ r _ ov ov (Or.inl rfl) ?_ ?_ <;> split
      · exact insExt_refl j l
      · exact insExt_insertCmp j l
      · exact insExt_refl j r
      · exact insExt_insertCmp j r
    · exact insExt_refl j _

theorem insExt_nil_right (j : Interval) (u : tree) (h : InsExt j .nil u) : u = .nil := by
  cases h; rfl

theorem insExt_isNil (j : Interval) (t u : tree) (h : InsExt j t u) : u.isNil = t.isNil := by
  cases h <;> rfl

theorem insExt_sg (j : Interval) (t u : tree) (h : InsExt j t u) : u.sg = t.sg := by
  cases h <;> rfl

theorem insExt_ne_nil (j : Interval) (t u : tree) (h : InsExt j t u) : u ≠ .nil ↔ t ≠ .nil := by
  rw [← isNil_eq_false_iff, ← isNil_eq_false_iff, insExt_isNil j t u h]

theorem insExt_leftOf (j : Interval) (t u : tree) (h : InsExt j t u) :
    InsExt j t.leftOf u.leftOf := by
  cases h with
  | nil => exact .nil
  | node s l l2 r r2 ov ov2 hov hl hr => exact hl

theorem insExt_rightOf (j : Interval) (t u : tree) (h : InsExt j t u) :
    InsExt j t.rightOf u.rightOf := by
  cases h with
  | nil => exact .nil
  | node s l l2 r r2 ov ov2 hov hl hr => exact hr

theorem insExt_leaves (j : Interval) : ∀ t u : tree, InsExt j t u →
    treeLeaves u = treeLeaves t := by
  intro t u h
  induction h with
  | nil => rfl
  | node s l l2 r r2 ov ov2 hov hl hr ihl ihr =>
    rw [treeLeaves_node, treeLeaves_node, insExt_isNil j l l2 hl,
      insExt_isNil j r r2 hr, ihl, ihr]

theorem insExt_inv (j : Interval) : ∀ t u : tree, InsExt j t u → Inv t → Inv u := by
  intro t u h
  induction h with
  | nil => exact fun h2 => h2
  | node s l l2 r r2 ov ov2 hov hl hr ihl ihr =>
    intro h2
    rcases (Inv_node s l r ov).mp h2 with ⟨hzt, hcov, hil, hir⟩
    refine (Inv_node s l2 r2 ov2).mpr ⟨?_, ?_, ihl hil, ihr hir⟩
    · rcases hzt with ⟨he1, he2⟩ | ⟨hn1, hn2, hgap⟩
      · subst he1; subst he2
        exact Or.inl ⟨insExt_nil_right j l2 hl, insExt_nil_right j r2 hr⟩
      · exact Or.inr ⟨(insExt_ne_nil j l l2 hl).mpr hn1, (insExt_ne_nil j r r2 hr).mpr hn2,
          by rw [insExt_sg j l l2 hl, insExt_sg j r r2 hr]; exact hgap⟩
    · intro x
      rw [insExt_leaves j (.node s l r ov) (.node s l2 r2 ov2)
        (.node s l l2 r r2 ov ov2 hov hl hr)]
      exact hcov x

theorem insExt_valid (j : Interval) : ∀ t u : tree, InsExt j t u →
    validSegs t → validSegs u := by
  intro t u h
  induction h with
  | nil => exact fun h2 => h2
  | node s l l2 r r2 ov ov2 hov hl hr ihl ihr =>
    intro h2
    exact ⟨h2.1, ihl h2.2.1, ihr h2.2.2⟩

theorem insExt_childrenSub (j : Interval) : ∀ t u : tree, InsExt j t u →
    childrenSub t → childrenSub u := by
  intro t u h
  induction h with
  | nil => exact fun h2 => h2
  | node s l l2 r r2 ov ov2 hov hl hr ihl ihr =>
    intro h2
    refine ⟨?_, ?_, ihl h2.2.2.1, ihr h2.2.2.2⟩
    · intro hn
      rw [insExt_sg j l l2 hl]
      exact h2.1 ((insExt_ne_nil j l l2 hl).mp hn)
    · intro hn
      rw [insExt_sg j r r2 hr]
      exact h2.2.1 ((insExt_ne_nil j r r2 hr).mp hn)

theorem forall2_mem_right {α β : Type} {R : α → β → Prop} :
    ∀ {l1 : List α} {l2 : List β}, List.Forall₂ R l1 l2 → ∀ y ∈ l2, ∃ x ∈ l1, R x y := by
  intro l1 l2 h
  induction h with
  | nil => intro y hy; exact absurd hy (List.not_mem_nil y)
  | cons hR hrest ih =>
    intro y hy
    rcases List.mem_cons.mp hy with hy1 | hy2
    · subst hy1; exact ⟨_, List.mem_cons_self _ _, hR⟩
    · rcases ih y hy2 with ⟨x, hx, hxy⟩
      exact ⟨x, List.mem_cons_of_mem _ hx, hxy⟩

theorem insExt_subtrees (j : Interval) : ∀ t u : tree, InsExt j t u →
    List.Forall₂ (InsExt j) (subtrees t) (subtrees u) := by
  intro t u h
  induction h with
  | nil => exact .nil
  | node s l l2 r r2 ov ov2 hov hl hr ihl ihr =>
    rw [subtrees_node, subtrees_node]
    exact .cons (.node s l l2 r r2 ov ov2 hov hl hr) (List.rel_append ihl ihr)

theorem insExt_mem_ov (j i : Interval) (hne : i ≠ j) (t u : tree) (h : InsExt j t u) :
    i ∈ u.ovOf ↔ i ∈ t.ovOf := by
  cases h with
  | nil => exact Iff.rfl
  | node s l l2 r r2 ov ov2 hov hl hr =>
    rcases hov with hov | hov <;> subst hov
    · exact Iff.rfl
    · simp [tree.ovOf, hne]

/-! ### Chained leaf lists -/

theorem chained_head_le :
    ∀ L : List Segment, L ≠ [] → List.Chain' (fun a b => b.From = a.To) L →
      (∀ s ∈ L, s.From ≤ s.To) →
      (L.headD ⟨0, 0⟩).From ≤ (L.getLastD ⟨0, 0⟩).To
  | [], h, _, _ => absurd rfl h
  | [s], _, _, hv => hv s (List.mem_singleton_self s)
  | s :: s2 :: rest, _, hch, hv => by
    have htail := chained_head_le (s2 :: rest) (by simp)
      (List.Chain'.tail hch) (fun x hx => hv x (List.mem_cons_of_mem s hx))
    have hrel : s2.From = s.To := List.chain'_cons.mp hch |>.1
    have hs : s.From ≤ s.To := hv s (List.mem_cons_self s _)
    simp only [List.headD, List.getLastD_cons] at *
    omega

theorem chainedCover :
    ∀ L : List Segment, L ≠ [] → List.Chain' (fun a b => b.From = a.To) L →
      (∀ s ∈ L, s.From ≤ s.To) → ∀ x : Int,
      (inSeg x ⟨(L.headD ⟨0, 0⟩).From, (L.getLastD ⟨0, 0⟩).To⟩ ↔ ∃ s ∈ L, inSeg x s)
  | [], h, _, _, _ => absurd rfl h
  | [s], _, _, _, x => by simp [inSeg]
  | s :: s2 :: rest, _, hch, hv, x => by
    have htail := chainedCover (s2 :: rest) (by simp)
      (List.Chain'.tail hch) (fun y hy => hv y (List.mem_cons_of_mem s hy)) x
    have hbnd := chained_head_le (s2 :: rest) (by simp)
      (List.Chain'.tail hch) (fun y hy => hv y (List.mem_cons_of_mem s hy))
    have hrel : s2.From = s.To := List.chain'_cons.mp hch |>.1
    have hs : s.From ≤ s.To := hv s (List.mem_cons_self s _)
    simp only [List.headD, List.getLastD_cons, inSeg, List.mem_cons, exists_eq_or_imp,
      decide_eq_true_eq, Bool.and_eq_true] at *
    constructor
    · rintro ⟨hx1, hx2⟩
      by_cases hcase : x ≤ s.To
      · exact Or.inl ⟨hx1, hcase⟩
      · exact Or.inr (htail.mp ⟨by omega, hx2⟩)
    · rintro (⟨hx1, hx2⟩ | hmem)
      · exact ⟨hx1, by omega⟩
      · have := htail.mpr hmem
        exact ⟨by omega, this.2⟩

/-! ### Specification of the sequential node builder -/

theorem getLast?_eq_getLastD {α : Type} (l : List α) (d : α) (h : l ≠ []) :
    l.getLast? = some (l.getLastD d) := by
  rw [List.getLastD_eq_getLast?, List.getLast?_eq_getLast_of_ne_nil h]
  rfl

theorem head?_eq_headD {α : Type} (l : List α) (d : α) (h : l ≠ []) :
    l.head? = some (l.headD d) := by
  cases l with
  | nil => exact absurd rfl h
  | cons a l => rfl

theorem getLastD_append_right {α : Type} (l1 l2 : List α) (d : α) (h : l2 ≠ []) :
    (l1 ++ l2).getLastD d = l2.getLastD d := by
  rw [List.getLastD_eq_getLast?, List.getLastD_eq_getLast?,
    List.getLast?_append_of_ne_nil l1 h]

theorem insertNodes_spec (leaves : List Segment) : leaves ≠ [] →
    List.Chain' (fun a b => b.From = a.To) leaves →
    (∀ s ∈ leaves, s.From ≤ s.To) →
    (insertNodes leaves).isNil = false ∧
    treeLeaves (insertNodes leaves) = leaves ∧
    (insertNodes leaves).sg = ⟨(leaves.headD ⟨0, 0⟩).From, (leaves.getLastD ⟨0, 0⟩).To⟩ ∧
    Inv (insertNodes leaves) ∧
    validSegs (insertNodes leaves) ∧
    childrenSub (insertNodes leaves) ∧
    AllOvEmpty (insertNodes leaves) := by
  induction leaves using insertNodes.induct with
  | case1 => exact fun h => absurd rfl h
  | case2 s =>
    intro _ _ hv
    have hs : s.From ≤ s.To := hv s (List.mem_singleton_self s)
    simp only [insertNodes]
    refine ⟨rfl, rfl, rfl, ?_, ⟨hs, trivial, trivial⟩, ?_, ?_⟩
    · refine (Inv_node _ _ _ _).mpr ⟨Or.inl ⟨rfl, rfl⟩, ?_, trivial, trivial⟩
      intro x
      simp [treeLeaves, tree.isNil]
    · exact ⟨fun h => absurd rfl h, fun h => absurd rfl h, trivial, trivial⟩
    · intro sub hsub
      simp only [subtrees, List.append_nil, List.mem_singleton] at hsub
      subst hsub
      rfl
  | case3 s1 s2 rest L C ih1 ih2 =>
    intro hne hch hv
    have hL : L = s1 :: s2 :: rest := rfl
    have hC : C = (rest.length + 1 + 1) / 2 := rfl
    rw [hL, hC] at ih1 ih2
    have hc1 : 1 ≤ (rest.length + 1 + 1) / 2 := by omega
    have hclt : (rest.length + 1 + 1) / 2 < rest.length + 1 + 1 := by omega
    have hlenL : (s1 :: s2 :: rest).length = rest.length + 1 + 1 := by
      simp only [List.length_cons]
    have htk_ne : (s1 :: s2 :: rest).take ((rest.length + 1 + 1) / 2) ≠ [] := by
      apply List.length_pos.mp
      rw [List.length_take, hlenL]
      omega
    have hdp_ne : (s1 :: s2 :: rest).drop ((rest.length + 1 + 1) / 2) ≠ [] := by
      apply List.length_pos.mp
      rw [List.length_drop, hlenL]
      omega
    have hchsplit := List.chain'_append.mp
      (by rw [List.take_append_drop ((rest.length + 1 + 1) / 2) (s1 :: s2 :: rest)]
          exact hch)
    have hvt : ∀ s ∈ (s1 :: s2 :: rest).take ((rest.length + 1 + 1) / 2), s.From ≤ s.To :=
      fun s hs => hv s (List.mem_of_mem_take hs)
    have hvd : ∀ s ∈ (s1 :: s2 :: rest).drop ((rest.length + 1 + 1) / 2), s.From ≤ s.To :=
      fun s hs => hv s (List.mem_of_mem_drop hs)
    obtain ⟨hnl1, hlv1, hsg1, hinv1, hval1, hcs1, hov1⟩ := ih1 htk_ne hchsplit.1 hvt
    obtain ⟨hnl2, hlv2, hsg2, hinv2, hval2, hcs2, hov2⟩ := ih2 hdp_ne hchsplit.2.1 hvd
    have hjunc : (((s1 :: s2 :: rest).drop ((rest.length + 1 + 1) / 2)).headD ⟨0, 0⟩).From =
        (((s1 :: s2 :: rest).take ((rest.length + 1 + 1) / 2)).getLastD ⟨0, 0⟩).To :=
      hchsplit.2.2 _ (by rw [getLast?_eq_getLastD _ ⟨0, 0⟩ htk_ne]; exact Option.mem_def.mpr rfl)
        _ (by rw [head?_eq_headD _ ⟨0, 0⟩ hdp_ne]; exact Option.mem_def.mpr rfl)
    have hgl : (s1 :: s2 :: rest).getLast (by simp) = (s1 :: s2 :: rest).getLastD ⟨0, 0⟩ := by
      rw [List.getLastD_eq_getLast?, List.getLast?_eq_getLast_of_ne_nil (by simp)]
      rfl
    have htk_head : ((s1 :: s2 :: rest).take ((rest.length + 1 + 1) / 2)).headD ⟨0, 0⟩ = s1 := by
      rw [show (rest.length + 1 + 1) / 2 = ((rest.length + 1 + 1) / 2 - 1) + 1 by omega,
        List.take_succ_cons]
      rfl
    have hlast_drop : (((s1 :: s2 :: rest).drop ((rest.length + 1 + 1) / 2)).getLastD ⟨0, 0⟩) =
        (s1 :: s2 :: rest).getLastD ⟨0, 0⟩ := by
      conv_rhs => rw [← List.take_append_drop ((rest.length + 1 + 1) / 2) (s1 :: s2 :: rest)]
      rw [getLastD_append_right _ _ _ hdp_ne]
    have htk_last_le : (((s1 :: s2 :: rest).take ((rest.length + 1 + 1) / 2)).getLastD
        ⟨0, 0⟩).To ≤ ((s1 :: s2 :: rest).getLastD ⟨0, 0⟩).To := by
      have hb := chained_head_le _ hdp_ne hchsplit.2.1 hvd
      rw [hlast_drop] at hb
      omega
    have hdp_head_ge : s1.From ≤
        (((s1 :: s2 :: rest).drop ((rest.length + 1 + 1) / 2)).headD ⟨0, 0⟩).From := by
      have hb := chained_head_le _ htk_ne hchsplit.1 hvt
      rw [htk_head] at hb
      omega
    simp only [insertNodes, List.length_cons]
    have hlv : treeLeaves (tree.node ⟨s1.From, ((s1 :: s2 :: rest).getLast (by simp)).To⟩
        (insertNodes ((s1 :: s2 :: rest).take ((rest.length + 1 + 1) / 2)))
        (insertNodes ((s1 :: s2 :: rest).drop ((rest.length + 1 + 1) / 2))) []) =
        s1 :: s2 :: rest := by
      rw [treeLeaves_node, hnl1, hnl2]
      simp only [Bool.and_false, Bool.false_eq_true, if_false]
      rw [hlv1, hlv2, List.take_append_drop]
    refine ⟨rfl, hlv, ?_, ?_, ?_, ?_, ?_⟩
    · rw [tree.sg, hgl]
      rfl
    · refine (Inv_node _ _ _ _).mpr ⟨?_, ?_, hinv1, hinv2⟩
      · refine Or.inr ⟨(isNil_eq_false_iff _).mp hnl1, (isNil_eq_false_iff _).mp hnl2, ?_⟩
        rw [hsg1, hsg2]
        exact hjunc.symm
      · intro x
        rw [hlv]
        have hcov := chainedCover (s1 :: s2 :: rest) (by simp) hch hv x
        rw [hgl]
        exact hcov
    · refine ⟨?_, hval1, hval2⟩
      rw [hgl]
      exact chained_head_le (s1 :: s2 :: rest) (by simp) hch hv
    · refine ⟨?_, ?_, hcs1, hcs2⟩
      · intro _
        rw [hsg1, hgl]
        constructor
        · rw [htk_head]
        · exact htk_last_le
      · intro _
        rw [hsg2, hgl]
        constructor
        · exact hdp_head_ge
        · rw [hlast_drop]
    · intro sub hsub
      rw [subtrees_node] at hsub
      rcases List.mem_cons.mp hsub with h | h
      · subst h
        rfl
      · rcases List.mem_append.mp h with h2 | h2
        · exact hov1 sub h2
        · exact hov2 sub h2

/-! ### Sorted-list helpers -/

theorem headD_mem {α : Type} (l : List α) (d : α) (h : l ≠ []) : l.headD d ∈ l := by
  cases l with
  | nil => exact absurd rfl h
  | cons a l => exact List.mem_cons_self a l

theorem getLastD_mem : ∀ (l : List Int) (d : Int), l ≠ [] → l.getLastD d ∈ l
  | [x], d, _ => by simp [List.getLastD]
  | x :: y :: rest, d, _ => by
    rw [List.getLastD_cons]
    exact List.mem_cons_of_mem x (getLastD_mem (y :: rest) x (by simp))

theorem sorted_headD_le_mem (l : List Int) (d : Int) (hs : List.Sorted (· ≤ ·) l) :
    ∀ x ∈ l, l.headD d ≤ x := by
  cases l with
  | nil => intro x hx; exact absurd hx (List.not_mem_nil x)
  | cons y rest =>
    intro x hx
    rcases List.mem_cons.mp hx with h | h
    · subst h; exact le_refl x
    · exact (List.sorted_cons.mp hs).1 x h

theorem sorted_le_getLastD : ∀ (l : List Int) (d : Int), List.Sorted (· ≤ ·) l →
    ∀ x ∈ l, x ≤ l.getLastD d
  | [], _, _, x, hx => absurd hx (List.not_mem_nil x)
  | [y], d, _, x, hx => by
    rw [List.mem_singleton] at hx
    subst hx
    simp [List.getLastD]
  | y :: y2 :: rest, d, hs, x, hx => by
    rw [List.getLastD_cons]
    rcases List.mem_cons.mp hx with h | h
    · rw [h]
      exact le_trans ((List.sorted_cons.mp hs).1 y2 (List.mem_cons_self y2 rest))
        (sorted_le_getLastD (y2 :: rest) y hs.of_cons y2 (List.mem_cons_self y2 rest))
    · exact sorted_le_getLastD (y2 :: rest) y hs.of_cons x h

/-! ### Dedup -/

theorem dedupGo_spec : ∀ (l : List Int) (p : Int), List.Sorted (· ≤ ·) l →
    (∀ x ∈ l, p ≤ x) →
    List.Sorted (· < ·) (dedupGo p l) ∧ ∀ y ∈ dedupGo p l, p < y ∧ y ∈ l
  | [], p, _, _ => ⟨List.sorted_nil, by simp [dedupGo]⟩
  | v :: rest, p, hs, hge => by
    rw [dedupGo]
    by_cases hvp : v = p
    · rw [if_neg (by simp [hvp])]
      have ih := dedupGo_spec rest p hs.of_cons
        (fun x hx => hge x (List.mem_cons_of_mem v hx))
      exact ⟨ih.1, fun y hy =>
        ⟨(ih.2 y hy).1, List.mem_cons_of_mem v (ih.2 y hy).2⟩⟩
    · rw [if_pos hvp]
      have ih := dedupGo_spec rest v hs.of_cons (List.sorted_cons.mp hs).1
      have hpv : p < v := lt_of_le_of_ne (hge v (List.mem_cons_self v rest)) (Ne.symm hvp)
      refine ⟨?_, ?_⟩
      · rw [List.sorted_cons]
        exact ⟨fun y hy => (ih.2 y hy).1, ih.1⟩
      · intro y hy
        rcases List.mem_cons.mp hy with h | h
        · subst h
          exact ⟨hpv, List.mem_cons_self y rest⟩
        · exact ⟨lt_trans hpv (ih.2 y h).1, List.mem_cons_of_mem v (ih.2 y h).2⟩

theorem Dedup_spec (sl : List Int) (h : sl ≠ []) :
    Dedup sl ≠ [] ∧ List.Sorted (· < ·) (Dedup sl) ∧ ∀ y ∈ Dedup sl, y ∈ sl := by
  unfold Dedup
  cases hsort : List.insertionSort (· ≤ ·) sl with
  | nil =>
    have hlen := List.Perm.length_eq (List.perm_insertionSort (· ≤ ·) sl)
    rw [hsort] at hlen
    exact absurd (List.length_eq_zero.mp hlen.symm) h
  | cons x rest =>
    have hsorted : List.Sorted (· ≤ ·) (x :: rest) := by
      rw [← hsort]
      exact List.sorted_insertionSort (· ≤ ·) sl
    have hperm : ∀ y, y ∈ x :: rest → y ∈ sl := by
      intro y hy
      rw [← hsort] at hy
      exact (List.Perm.mem_iff (List.perm_insertionSort (· ≤ ·) sl)).mp hy
    show dedupGo (x + 1) (x :: rest) ≠ [] ∧
      List.Sorted (· < ·) (dedupGo (x + 1) (x :: rest)) ∧
      ∀ y ∈ dedupGo (x + 1) (x :: rest), y ∈ sl
    rw [dedupGo, if_pos (by omega : x ≠ x + 1)]
    have ih := dedupGo_spec rest x hsorted.of_cons (List.sorted_cons.mp hsorted).1
    refine ⟨by simp, ?_, ?_⟩
    · rw [List.sorted_cons]
      exact ⟨fun y hy => (ih.2 y hy).1, ih.1⟩
    · intro y hy
      rcases List.mem_cons.mp hy with h2 | h2
      · subst h2
        exact hperm y (List.mem_cons_self y rest)
      · exact hperm y (List.mem_cons_of_mem x (ih.2 y h2).2)

theorem Endpoints_fst (base : List Interval) :
    (Endpoints base).1 = Dedup (endpointValues base) := rfl

theorem Endpoints_max (base : List Interval) :
    (Endpoints base).2.2 =
      (Dedup (endpointValues base)).getD ((Dedup (endpointValues base)).length - 1) 0 := rfl

/-! ### Properties of the alternating leaves -/

theorem altLeaves_ne_nil (p : Int) (l : List Int) : altLeaves (p :: l) ≠ [] := by
  cases l <;> simp [altLeaves]

theorem altLeaves_chain : ∀ l : List Int,
    List.Chain' (fun a b : Segment => b.From = a.To) (altLeaves l)
  | [] => List.chain'_nil
  | [p] => by simp [altLeaves]
  | p :: q :: rest => by
    have ih := altLeaves_chain (q :: rest)
    cases rest with
    | nil => simp [altLeaves]
    | cons r2 rest2 =>
      simp only [altLeaves] at ih ⊢
      exact List.Chain'.cons rfl (List.Chain'.cons rfl ih)

theorem altLeaves_valid : ∀ l : List Int, List.Sorted (· ≤ ·) l →
    ∀ s ∈ altLeaves l, s.From ≤ s.To
  | [], _, s, hs => absurd hs (List.not_mem_nil s)
  | [p], _, s, hs => by
    rw [altLeaves, List.mem_singleton] at hs
    subst hs
    exact le_refl p
  | p :: q :: rest, hsort, s, hs => by
    rw [altLeaves] at hs
    rcases List.mem_cons.mp hs with h | h
    · subst h; exact le_refl p
    rcases List.mem_cons.mp h with h2 | h2
    · subst h2
      exact (List.sorted_cons.mp hsort).1 q (List.mem_cons_self q rest)
    · exact altLeaves_valid (q :: rest) hsort.of_cons s h2

/-! ### Specification of the parallel node builder -/

theorem insExt_zeroTwo (j : Interval) : ∀ t u : tree, InsExt j t u →
    ZeroTwo t → ZeroTwo u := by
  intro t u h
  induction h with
  | nil => exact fun h2 => h2
  | node s l l2 r r2 ov ov2 hov hl hr ihl ihr =>
    intro h2
    refine ⟨?_, ihl h2.2.1, ihr h2.2.2⟩
    rcases h2.1 with ⟨he1, he2⟩ | ⟨hn1, hn2⟩
    · subst he1; subst he2
      exact Or.inl ⟨insExt_nil_right j l2 hl, insExt_nil_right j r2 hr⟩
    · exact Or.inr ⟨(insExt_ne_nil j l l2 hl).mpr hn1, (insExt_ne_nil j r r2 hr).mpr hn2⟩

theorem minsertNodes_spec (mx : Int) (endpoint : List Int) : endpoint ≠ [] →
    List.Sorted (· ≤ ·) endpoint →
    (minsertNodes mx endpoint).isNil = false ∧
    (minsertNodes mx endpoint).sg = ⟨endpoint.headD 0, endpoint.getLastD 0⟩ ∧
    ZeroTwo (minsertNodes mx endpoint) ∧
    validSegs (minsertNodes mx endpoint) ∧
    childrenSub (minsertNodes mx endpoint) ∧
    AllOvEmpty (minsertNodes mx endpoint) := by
  induction endpoint using minsertNodes.induct mx with
  | case1 => exact fun h => absurd rfl h
  | case2 e =>
    intro _ _
    simp only [minsertNodes]
    refine ⟨rfl, rfl, ⟨Or.inl ⟨rfl, rfl⟩, trivial, trivial⟩,
      ⟨le_refl e, trivial, trivial⟩,
      ⟨fun h => absurd rfl h, fun h => absurd rfl h, trivial, trivial⟩, ?_⟩
    intro sub hsub
    simp only [subtrees, List.append_nil, List.mem_singleton] at hsub
    subst hsub
    rfl
  | case3 e0 e1 hne1 =>
    intro _ hs
    have h01 : e0 ≤ e1 := (List.sorted_cons.mp hs).1 e1 (List.mem_cons_self e1 [])
    simp only [minsertNodes, if_pos hne1]
    refine ⟨rfl, rfl, ?_, ?_, ?_, ?_⟩
    · exact ⟨Or.inr ⟨by simp, by simp⟩,
        ⟨Or.inl ⟨rfl, rfl⟩, trivial, trivial⟩, ⟨Or.inl ⟨rfl, rfl⟩, trivial, trivial⟩⟩
    · exact ⟨h01, ⟨le_refl e0, trivial, trivial⟩, ⟨le_refl e1, trivial, trivial⟩⟩
    · refine ⟨fun _ => ⟨le_refl e0, h01⟩, fun _ => ⟨h01, le_refl e1⟩, ?_, ?_⟩
      · exact ⟨fun h => absurd rfl h, fun h => absurd rfl h, trivial, trivial⟩
      · exact ⟨fun h => absurd rfl h, fun h => absurd rfl h, trivial, trivial⟩
    · intro sub hsub
      simp only [subtrees, List.nil_append, List.append_nil, List.cons_append,
        List.mem_cons, List.not_mem_nil, or_false] at hsub
      rcases hsub with h | h | h <;> subst h <;> rfl
  | case4 e0 e1 hne1 =>
    intro _ hs
    have h01 : e0 ≤ e1 := (List.sorted_cons.mp hs).1 e1 (List.mem_cons_self e1 [])
    simp only [minsertNodes, if_neg hne1]
    refine ⟨rfl, rfl, ⟨Or.inl ⟨rfl, rfl⟩, trivial, trivial⟩,
      ⟨h01, trivial, trivial⟩,
      ⟨fun h => absurd rfl h, fun h => absurd rfl h, trivial, trivial⟩, ?_⟩
    intro sub hsub
    simp only [subtrees, List.append_nil, List.mem_singleton] at hsub
    subst hsub
    rfl
  | case5 e0 e1 e2 rest L C ih1 ih2 =>
    intro hne hs
    have hL : L = e0 :: e1 :: e2 :: rest := rfl
    have hC : C = (rest.length + 1 + 1 + 1) / 2 := rfl
    rw [hL, hC] at ih1 ih2
    have htk_ne : (e0 :: e1 :: e2 :: rest).take ((rest.length + 1 + 1 + 1) / 2 + 1) ≠ [] := by
      apply List.length_pos.mp
      rw [List.length_take]
      simp only [List.length_cons]
      omega
    have hdp_ne : (e0 :: e1 :: e2 :: rest).drop ((rest.length + 1 + 1 + 1) / 2 + 1) ≠ [] := by
      apply List.length_pos.mp
      rw [List.length_drop]
      simp only [List.length_cons]
      omega
    have hst : List.Sorted (· ≤ ·)
        ((e0 :: e1 :: e2 :: rest).take ((rest.length + 1 + 1 + 1) / 2 + 1)) :=
      hs.sublist (List.take_sublist _ _)
    have hsd : List.Sorted (· ≤ ·)
        ((e0 :: e1 :: e2 :: rest).drop ((rest.length + 1 + 1 + 1) / 2 + 1)) :=
      hs.sublist (List.drop_sublist _ _)
    obtain ⟨hnl1, hsg1, hz1, hval1, hcs1, hov1⟩ := ih1 htk_ne hst
    obtain ⟨hnl2, hsg2, hz2, hval2, hcs2, hov2⟩ := ih2 hdp_ne hsd
    have hgl : (e0 :: e1 :: e2 :: rest).getLast (by simp) =
        (e0 :: e1 :: e2 :: rest).getLastD 0 := by
      rw [List.getLastD_eq_getLast?, List.getLast?_eq_getLast_of_ne_nil (by simp)]
      rfl
    have htk_head : ((e0 :: e1 :: e2 :: rest).take
        ((rest.length + 1 + 1 + 1) / 2 + 1)).headD 0 = e0 := by
      rw [List.take_succ_cons]
      rfl
    have hlast_drop : (((e0 :: e1 :: e2 :: rest).drop
        ((rest.length + 1 + 1 + 1) / 2 + 1)).getLastD 0) =
        (e0 :: e1 :: e2 :: rest).getLastD 0 := by
      conv_rhs => rw [← List.take_append_drop ((rest.length + 1 + 1 + 1) / 2 + 1)
        (e0 :: e1 :: e2 :: rest)]
      rw [getLastD_append_right _ _ _ hdp_ne]
    have htk_last_le : (((e0 :: e1 :: e2 :: rest).take
        ((rest.length + 1 + 1 + 1) / 2 + 1)).getLastD 0) ≤
        (e0 :: e1 :: e2 :: rest).getLastD 0 :=
      sorted_le_getLastD _ 0 hs _
        (List.mem_of_mem_take (getLastD_mem _ 0 htk_ne))
    have hdp_head_ge : e0 ≤ (((e0 :: e1 :: e2 :: rest).drop
        ((rest.length + 1 + 1 + 1) / 2 + 1)).headD 0) :=
      sorted_headD_le_mem _ 0 hs _
        (List.mem_of_mem_drop (headD_mem _ 0 hdp_ne))
    have hfull_le : e0 ≤ (e0 :: e1 :: e2 :: rest).getLastD 0 :=
      sorted_headD_le_mem _ 0 hs _ (getLastD_mem _ 0 (by simp))
    simp only [minsertNodes, List.length_cons]
    refine ⟨rfl, ?_, ?_, ?_, ?_, ?_⟩
    · rw [tree.sg, hgl]
      rfl
    · refine ⟨?_, hz1, hz2⟩
      exact Or.inr ⟨(isNil_eq_false_iff _).mp hnl1, (isNil_eq_false_iff _).mp hnl2⟩
    · refine ⟨?_, hval1, hval2⟩
      rw [hgl]
      exact hfull_le
    · refine ⟨?_, ?_, hcs1, hcs2⟩
      · intro _
        rw [hsg1, hgl]
        exact ⟨le_of_eq htk_head.symm, htk_last_le⟩
      · intro _
        rw [hsg2, hgl]
        exact ⟨hdp_head_ge, le_of_eq hlast_drop⟩
    · intro sub hsub
      rw [subtrees_node] at hsub
      rcases List.mem_cons.mp hsub with h | h
      · subst h
        rfl
      · rcases List.mem_append.mp h with h2 | h2
        · exact hov1 sub h2
        · exact hov2 sub h2

/-! ### Folding insertions preserves the tree shape -/

theorem foldl_insert_preserve (is : List Interval) : ∀ t : tree,
    treeLeaves (is.foldl insertInterval t) = treeLeaves t ∧
    (is.foldl insertInterval t).isNil = t.isNil ∧
    (is.foldl insertInterval t).sg = t.sg ∧
    (Inv t → Inv (is.foldl insertInterval t)) ∧
    (validSegs t → validSegs (is.foldl insertInterval t)) ∧
    (childrenSub t → childrenSub (is.foldl insertInterval t)) ∧
    (ZeroTwo t → ZeroTwo (is.foldl insertInterval t)) := by
  induction is with
  | nil => exact fun t => ⟨rfl, rfl, rfl, id, id, id, id⟩
  | cons i is ih =>
    intro t
    have h1 := insExt_insert i t
    have h2 := ih (insertInterval t i)
    rw [List.foldl_cons]
    exact ⟨h2.1.trans (insExt_leaves i t _ h1),
      h2.2.1.trans (insExt_isNil i t _ h1),
      h2.2.2.1.trans (insExt_sg i t _ h1),
      fun hi => h2.2.2.2.1 (insExt_inv i t _ h1 hi),
      fun hv => h2.2.2.2.2.1 (insExt_valid i t _ h1 hv),
      fun hc => h2.2.2.2.2.2.1 (insExt_childrenSub i t _ h1 hc),
      fun hz => h2.2.2.2.2.2.2 (insExt_zeroTwo i t _ h1 hz)⟩

theorem foldl_insertCmp_preserve (is : List Interval) : ∀ t : tree,
    treeLeaves (is.foldl insertIntervalCmp t) = treeLeaves t ∧
    (is.foldl insertIntervalCmp t).isNil = t.isNil ∧
    (is.foldl insertIntervalCmp t).sg = t.sg ∧
    (Inv t → Inv (is.foldl insertIntervalCmp t)) ∧
    (validSegs t → validSegs (is.foldl insertIntervalCmp t)) ∧
    (childrenSub t → childrenSub (is.foldl insertIntervalCmp t)) ∧
    (ZeroTwo t → ZeroTwo (is.foldl insertIntervalCmp t)) := by
  induction is with
  | nil => exact fun t => ⟨rfl, rfl, rfl, id, id, id, id⟩
  | cons i is ih =>
    intro t
    have h1 := insExt_insertCmp i t
    have h2 := ih (insertIntervalCmp t i)
    rw [List.foldl_cons]
    exact ⟨h2.1.trans (insExt_leaves i t _ h1),
      h2.2.1.trans (insExt_isNil i t _ h1),
      h2.2.2.1.trans (insExt_sg i t _ h1),
      fun hi => h2.2.2.2.1 (insExt_inv i t _ h1 hi),
      fun hv => h2.2.2.2.2.1 (insExt_valid i t _ h1 hv),
      fun hc => h2.2.2.2.2.2.1 (insExt_childrenSub i t _ h1 hc),
      fun hz => h2.2.2.2.2.2.2 (insExt_zeroTwo i t _ h1 hz)⟩

/-! ### The staged stack -/

theorem stage_length (rs : List (Int × Int)) : (stage rs).length = rs.length := by
  simp [stage]

theorem stage_ne_nil (rs : List (Int × Int)) (h : rs ≠ []) : stage rs ≠ [] := by
  intro h2
  apply h
  have hl := stage_length rs
  rw [h2] at hl
  exact List.length_eq_zero.mp hl.symm

theorem endpointValues_ne_nil (base : List Interval) (h : base ≠ []) :
    endpointValues base ≠ [] := by
  rw [endpointValues]
  intro h2
  rcases List.append_eq_nil.mp h2 with ⟨h3, _⟩
  exact h (List.map_eq_nil_iff.mp h3)

/-! ### Equivalence of the two insertion formulations -/

theorem insertCmp_disjoint (i : Interval) (t : tree)
    (hd : t.isNil = false → i.seg.From > t.sg.To ∨ i.seg.To < t.sg.From) :
    insertIntervalCmp t i = t := by
  cases t with
  | nil => rfl
  | node s l r ov =>
    have hdisj := hd rfl
    simp only [tree.sg] at hdisj
    have hcmp : s.CompareTo i.seg = DISJOINT := by
      rw [Segment.CompareTo, if_pos hdisj]
    rw [insertIntervalCmp, hcmp]
    simp [SUBSET, DISJOINT, INTERSECT_OR_SUPERSET]

theorem child_branch_eqv (i : Interval) (c : tree) (hv : validSegs c)
    (hc2 : childrenSub c)
    (ih : validSegs c → childrenSub c → insertIntervalCmp c i = insertInterval c i) :
    (if c.isNil then c else insertIntervalCmp c i) =
    (if !c.isNil && c.sg.intersectsWith i.seg then insertInterval c i else c) := by
  cases c with
  | nil => rfl
  | node cs cl cr cov =>
    simp only [tree.isNil, Bool.not_false, Bool.true_and, Bool.false_eq_true, if_false]
    by_cases hint : (tree.node cs cl cr cov).sg.intersectsWith i.seg = true
    · rw [if_pos hint]
      exact ih hv hc2
    · rw [if_neg hint]
      apply insertCmp_disjoint
      intro _
      simp only [Segment.intersectsWith, Bool.or_eq_true, Bool.and_eq_true,
        decide_eq_true_eq, tree.sg] at hint ⊢
      omega

theorem insert_eqv (i : Interval) : ∀ t : tree, validSegs t → childrenSub t →
    insertIntervalCmp t i = insertInterval t i := by
  intro t
  induction t with
  | nil => exact fun _ _ => rfl
  | node s l r ov ihl ihr =>
    intro hv hc
    by_cases hdisj : i.seg.From > s.To ∨ i.seg.To < s.From
    · have hcmp : s.CompareTo i.seg = DISJOINT := by
        rw [Segment.CompareTo, if_pos hdisj]
      have hnsub : ¬ s.subsetOf i.seg = true := by
        simp only [Segment.subsetOf, Bool.and_eq_true, decide_eq_true_eq, ge_iff_le]
        have hval : s.From ≤ s.To := hv.1
        omega
      have hl0 : (!l.isNil && l.sg.intersectsWith i.seg) = false := by
        cases hli : l.isNil
        · simp only [hli, Bool.not_false, Bool.true_and]
          apply Bool.eq_false_iff.mpr
          intro hint
          simp only [Segment.intersectsWith, Bool.or_eq_true, Bool.and_eq_true,
            decide_eq_true_eq] at hint
          have hcs := hc.1 ((isNil_eq_false_iff l).mp hli)
          omega
        · simp [hli]
      have hr0 : (!r.isNil && r.sg.intersectsWith i.seg) = false := by
        cases hri : r.isNil
        · simp only [hri, Bool.not_false, Bool.true_and]
          apply Bool.eq_false_iff.mpr
          intro hint
          simp only [Segment.intersectsWith, Bool.or_eq_true, Bool.and_eq_true,
            decide_eq_true_eq] at hint
          have hcs := hc.2.1 ((isNil_eq_false_iff r).mp hri)
          omega
        · simp [hri]
      rw [insertIntervalCmp, hcmp, insertInterval, if_neg hnsub, hl0, hr0]
      simp [SUBSET, DISJOINT, INTERSECT_OR_SUPERSET]
    · by_cases hsubc : i.seg.From ≤ s.From ∧ i.seg.To ≥ s.To
      · have hcmp : s.CompareTo i.seg = SUBSET := by
          rw [Segment.CompareTo, if_neg hdisj, if_pos hsubc]
        have hsub : s.subsetOf i.seg = true := by
          simp only [Segment.subsetOf, Bool.and_eq_true, decide_eq_true_eq, ge_iff_le]
          exact ⟨hsubc.1, hsubc.2⟩
        rw [insertIntervalCmp, hcmp, insertInterval, if_pos hsub]
        simp [SUBSET]
      · have hcmp : s.CompareTo i.seg = INTERSECT_OR_SUPERSET := by
          rw [Segment.CompareTo, if_neg hdisj, if_neg hsubc]
        have hnsub : ¬ s.subsetOf i.seg = true := by
          simp only [Segment.subsetOf, Bool.and_eq_true, decide_eq_true_eq, ge_iff_le]
          exact fun hab => hsubc ⟨hab.1, hab.2⟩
        rw [insertIntervalCmp, hcmp, insertInterval, if_neg hnsub,
          if_neg (by simp [SUBSET, INTERSECT_OR_SUPERSET] :
            ¬ INTERSECT_OR_SUPERSET = SUBSET),
          if_pos (rfl : INTERSECT_OR_SUPERSET = INTERSECT_OR_SUPERSET)]
        rw [child_branch_eqv i l hv.2.1 hc.2.2.1 ihl,
          child_branch_eqv i r hv.2.2 hc.2.2.2 ihr]

/-! ### Canonical insertion: subset attachment and no descendant attachment -/

theorem occurs_node (i : Interval) (s : Segment) (l r : tree) (ov : List Interval) :
    Occurs i (tree.node s l r ov) ↔ i ∈ ov ∨ Occurs i l ∨ Occurs i r := by
  unfold Occurs
  rw [subtrees_node]
  constructor
  · rintro ⟨sub, hsub, hmem⟩
    rcases List.mem_cons.mp hsub with h | h
    · subst h
      exact Or.inl hmem
    · rcases List.mem_append.mp h with h2 | h2
      · exact Or.inr (Or.inl ⟨sub, h2, hmem⟩)
      · exact Or.inr (Or.inr ⟨sub, h2, hmem⟩)
  · rintro (h | ⟨sub, hsub, hmem⟩ | ⟨sub, hsub, hmem⟩)
    · exact ⟨_, List.mem_cons_self _ _, h⟩
    · exact ⟨sub, List.mem_cons_of_mem _ (List.mem_append_left _ hsub), hmem⟩
    · exact ⟨sub, List.mem_cons_of_mem _ (List.mem_append_right _ hsub), hmem⟩

theorem noDesc_of_not_occurs (i : Interval) (t : tree) (h : ¬ Occurs i t) :
    NoDescHolds i t := by
  intro sub hsub hmem
  exact absurd ⟨sub, hsub, hmem⟩ h

theorem noDesc_node (i : Interval) (s : Segment) (l r : tree) (ov : List Interval) :
    NoDescHolds i (tree.node s l r ov) ↔
      (i ∈ ov → ¬ Occurs i l ∧ ¬ Occurs i r) ∧ NoDescHolds i l ∧ NoDescHolds i r := by
  unfold NoDescHolds Occurs
  rw [subtrees_node]
  constructor
  · intro h
    refine ⟨?_, ?_, ?_⟩
    · intro hov
      have hself := h _ (List.mem_cons_self _ _) hov
      constructor
      · rintro ⟨sub, hsub, hmem⟩
        exact hself sub (List.mem_append_left _ hsub) hmem
      · rintro ⟨sub, hsub, hmem⟩
        exact hself sub (List.mem_append_right _ hsub) hmem
    · intro sub hsub hmem sub2 hsub2
      exact h sub (List.mem_cons_of_mem _ (List.mem_append_left _ hsub)) hmem sub2 hsub2
    · intro sub hsub hmem sub2 hsub2
      exact h sub (List.mem_cons_of_mem _ (List.mem_append_right _ hsub)) hmem sub2 hsub2
  · rintro ⟨hself, hl, hr⟩ sub hsub hmem sub2 hsub2 hmem2
    rcases List.mem_cons.mp hsub with h | h
    · subst h
      rcases List.mem_append.mp hsub2 with h2 | h2
      · exact (hself hmem).1 ⟨sub2, h2, hmem2⟩
      · exact (hself hmem).2 ⟨sub2, h2, hmem2⟩
    · rcases List.mem_append.mp h with h2 | h2
      · exact hl sub h2 hmem sub2 hsub2 hmem2
      · exact hr sub h2 hmem sub2 hsub2 hmem2

theorem subsetInv_node (s : Segment) (l r : tree) (ov : List Interval) :
    SubsetInv (tree.node s l r ov) ↔
      (∀ j ∈ ov, s.subsetOf j.seg = true) ∧ SubsetInv l ∧ SubsetInv r := by
  unfold SubsetInv
  rw [subtrees_node]
  constructor
  · intro h
    refine ⟨fun j hj => h _ (List.mem_cons_self _ _) j hj, ?_, ?_⟩
    · exact fun sub hsub => h sub (List.mem_cons_of_mem _ (List.mem_append_left _ hsub))
    · exact fun sub hsub => h sub (List.mem_cons_of_mem _ (List.mem_append_right _ hsub))
  · rintro ⟨hov, hl, hr⟩ sub hsub
    rcases List.mem_cons.mp hsub with h | h
    · subst h
      exact hov
    · rcases List.mem_append.mp h with h2 | h2
      · exact hl sub h2
      · exact hr sub h2

theorem subsetInv_insert (i : Interval) : ∀ t : tree, SubsetInv t →
    SubsetInv (insertInterval t i) := by
  intro t
  induction t with
  | nil => exact fun h => h
  | node s l r ov ihl ihr =>
    intro h
    rw [subsetInv_node] at h
    rw [insertInterval]
    split
    case isTrue hsub =>
      rw [subsetInv_node]
      refine ⟨?_, h.2.1, h.2.2⟩
      intro j hj
      rcases List.mem_append.mp hj with h2 | h2
      · exact h.1 j h2
      · rw [List.mem_singleton] at h2
        subst h2
        exact hsub
    case isFalse hns =>
      rw [subsetInv_node]
      refine ⟨h.1, ?_, ?_⟩
      · split
        · exact ihl h.2.1
        · exact h.2.1
      · split
        · exact ihr h.2.2
        · exact h.2.2

theorem noDesc_insert_self (i : Interval) : ∀ t : tree, ¬ Occurs i t →
    NoDescHolds i (insertInterval t i) := by
  intro t
  induction t with
  | nil =>
    intro _ sub hsub
    simp [insertInterval, subtrees] at hsub
  | node s l r ov ihl ihr =>
    intro hocc
    rw [occurs_node] at hocc
    push_neg at hocc
    obtain ⟨hov, hol, hor⟩ := hocc
    rw [insertInterval]
    split
    · rw [noDesc_node]
      exact ⟨fun _ => ⟨hol, hor⟩, noDesc_of_not_occurs i l hol, noDesc_of_not_occurs i r hor⟩
    · rw [noDesc_node]
      refine ⟨fun hmem => absurd hmem hov, ?_, ?_⟩
      · split
        · exact ihl hol
        · exact noDesc_of_not_occurs i l hol
      · split
        · exact ihr hor
        · exact noDesc_of_not_occurs i r hor

theorem occurs_insExt (i j : Interval) (hne : i ≠ j) (t u : tree) (h : InsExt j t u) :
    Occurs i u → Occurs i t := by
  rintro ⟨sub2, hsub2, hmem2⟩
  rcases forall2_mem_right (insExt_subtrees j t u h) sub2 hsub2 with ⟨sub, hsub, hrel⟩
  exact ⟨sub, hsub, (insExt_mem_ov j i hne sub sub2 hrel).mp hmem2⟩

theorem noDesc_insExt (i j : Interval) (hne : i ≠ j) (t u : tree) (h : InsExt j t u)
    (hnd : NoDescHolds i t) : NoDescHolds i u := by
  intro sub2 hsub2 hmem2 sub2b hsub2b hmem2b
  rcases forall2_mem_right (insExt_subtrees j t u h) sub2 hsub2 with ⟨sub, hsub, hrel⟩
  have hmem : i ∈ sub.ovOf := (insExt_mem_ov j i hne sub sub2 hrel).mp hmem2
  have hrel_l := insExt_leftOf j sub sub2 hrel
  have hrel_r := insExt_rightOf j sub sub2 hrel
  rcases List.mem_append.mp hsub2b with h2 | h2
  · rcases forall2_mem_right (insExt_subtrees j _ _ hrel_l) sub2b h2 with ⟨subb, hsubb, hrelb⟩
    exact hnd sub hsub hmem subb (List.mem_append_left _ hsubb)
      ((insExt_mem_ov j i hne subb sub2b hrelb).mp hmem2b)
  · rcases forall2_mem_right (insExt_subtrees j _ _ hrel_r) sub2b h2 with ⟨subb, hsubb, hrelb⟩
    exact hnd sub hsub hmem subb (List.mem_append_right _ hsubb)
      ((insExt_mem_ov j i hne subb sub2b hrelb).mp hmem2b)

theorem foldl_insert_canonical : ∀ (is : List Interval) (t : tree),
    SubsetInv t → (∀ i ∈ is, ¬ Occurs i t) → is.Nodup →
    SubsetInv (is.foldl insertInterval t) ∧
    (∀ i ∈ is, NoDescHolds i (is.foldl insertInterval t)) ∧
    (∀ j, j ∉ is → NoDescHolds j t → NoDescHolds j (is.foldl insertInterval t))
  | [], t, hs, _, _ => ⟨hs, by simp, fun j _ h => h⟩
  | a :: as, t, hs, hocc, hnd => by
    rw [List.foldl_cons]
    have hocc_a : ¬ Occurs a t := hocc a (List.mem_cons_self a as)
    have hnodup := List.nodup_cons.mp hnd
    have hocc_as : ∀ i ∈ as, ¬ Occurs i (insertInterval t a) := by
      intro i hi hocc2
      have hia : i ≠ a := fun he => hnodup.1 (he ▸ hi)
      exact hocc i (List.mem_cons_of_mem a hi)
        (occurs_insExt i a hia t _ (insExt_insert a t) hocc2)
    have ih := foldl_insert_canonical as (insertInterval t a)
      (subsetInv_insert a t hs) hocc_as hnodup.2
    refine ⟨ih.1, ?_, ?_⟩
    · intro i hi
      rcases List.mem_cons.mp hi with h | h
      · subst h
        exact ih.2.2 i hnodup.1 (noDesc_insert_self i t hocc_a)
      · exact ih.2.1 i h
    · intro j hj hndj
      have hja : j ≠ a := fun he => hj (he ▸ List.mem_cons_self a as)
      exact ih.2.2 j (fun h2 => hj (List.mem_cons_of_mem a h2))
        (noDesc_insExt j a hja t _ (insExt_insert a t) hndj)

theorem foldl_cmp_eq_foldl_subset : ∀ (is : List Interval) (t : tree),
    validSegs t → childrenSub t →
    is.foldl insertIntervalCmp t = is.foldl insertInterval t
  | [], _, _, _ => rfl
  | a :: as, t, hv, hc => by
    rw [List.foldl_cons, List.foldl_cons, insert_eqv a t hv hc]
    exact foldl_cmp_eq_foldl_subset as (insertInterval t a)
      (insExt_valid a t _ (insExt_insert a t) hv)
      (insExt_childrenSub a t _ (insExt_insert a t) hc)

theorem allov_subsetInv (t : tree) (h : AllOvEmpty t) : SubsetInv t := by
  intro sub hsub j hj
  rw [h sub hsub] at hj
  exact absurd hj (List.not_mem_nil j)

theorem allov_not_occurs (t : tree) (h : AllOvEmpty t) (i : Interval) : ¬ Occurs i t := by
  rintro ⟨sub, hsub, hmem⟩
  rw [h sub hsub] at hmem
  exact List.not_mem_nil i hmem

theorem stage_nodup (rs : List (Int × Int)) : (stage rs).Nodup := by
  apply List.Nodup.of_map (fun i => i.Id)
  have hmap : (stage rs).map (fun i => i.Id) = List.range rs.length := by
    rw [stage, List.map_map]
    exact List.enum_map_fst rs
  rw [hmap]
  exact List.nodup_range rs.length

/-! ### Agreement of the sequential tree query with the serial oracle

For valid staged ranges (from ≤ to) and a probe range with a ≤ b, the
querySingle result of the sequentially built tree has exactly the id-set of
the serial oracle's linear scan.  The lemmas below establish both
inclusions: soundness via the subset invariant of canonical insertion, and
completeness by locating, for every interval hit by the oracle, an
elementary leaf inside the interval that also contains a point of the probe
range, and following it to an attached node. -/

theorem forall2_mem_left {α β : Type} {R : α → β → Prop} :
    ∀ {l1 : List α} {l2 : List β}, List.Forall₂ R l1 l2 → ∀ x ∈ l1, ∃ y ∈ l2, R x y := by
  intro l1 l2 h
  induction h with
  | nil => intro x hx; exact absurd hx (List.not_mem_nil x)
  | cons hR hrest ih =>
    intro x hx
    rcases List.mem_cons.mp hx with hx1 | hx2
    · subst hx1; exact ⟨_, List.mem_cons_self _ _, hR⟩
    · rcases ih x hx2 with ⟨y, hy, hxy⟩
      exact ⟨y, List.mem_cons_of_mem _ hy, hxy⟩

theorem insExt_ov_mono (j i : Interval) (t u : tree) (h : InsExt j t u) :
    i ∈ t.ovOf → i ∈ u.ovOf := by
  cases h with
  | nil => exact id
  | node s l l2 r r2 ov ov2 hov hl hr =>
    intro hi
    rcases hov with hov | hov <;> subst hov
    · exact hi
    · exact List.mem_append_left _ hi

theorem attached_insExt (j i : Interval) (t u : tree) (h : InsExt j t u) :
    ∀ sub ∈ subtrees t, i ∈ sub.ovOf →
      ∃ sub2 ∈ subtrees u, i ∈ sub2.ovOf ∧ sub2.sg = sub.sg := by
  intro sub hsub hmem
  rcases forall2_mem_left (insExt_subtrees j t u h) sub hsub with ⟨sub2, hsub2, hrel⟩
  exact ⟨sub2, hsub2, insExt_ov_mono j i sub sub2 hrel hmem, insExt_sg j sub sub2 hrel⟩

theorem attached_foldl (i : Interval) (sg0 : Segment) :
    ∀ (is : List Interval) (t : tree),
    (∃ sub ∈ subtrees t, i ∈ sub.ovOf ∧ sub.sg = sg0) →
    ∃ sub2 ∈ subtrees (is.foldl insertInterval t), i ∈ sub2.ovOf ∧ sub2.sg = sg0
  | [], _, h => h
  | a :: as, t, h => by
    rw [List.foldl_cons]
    apply attached_foldl i sg0 as
    rcases h with ⟨sub, hsub, hmem, hsg⟩
    rcases attached_insExt a i t _ (insExt_insert a t) sub hsub hmem
      with ⟨sub2, h2, h3, h4⟩
    exact ⟨sub2, h2, h3, h4.trans hsg⟩

theorem occurs_foldl : ∀ (is : List Interval) (t : tree) (i : Interval),
    Occurs i (is.foldl insertInterval t) → Occurs i t ∨ i ∈ is
  | [], _, _, h => Or.inl h
  | a :: as, t, i, h => by
    rw [List.foldl_cons] at h
    rcases occurs_foldl as (insertInterval t a) i h with h2 | h2
    · by_cases hia : i = a
      · exact Or.inr (hia ▸ List.mem_cons_self a as)
      · exact Or.inl (occurs_insExt i a hia t _ (insExt_insert a t) h2)
    · exact Or.inr (List.mem_cons_of_mem a h2)

theorem mem_dedupGo : ∀ (l : List Int) (p x : Int), x ∈ l → x = p ∨ x ∈ dedupGo p l
  | [], _, x, hx => absurd hx (List.not_mem_nil x)
  | v :: rest, p, x, hx => by
    rw [dedupGo]
    by_cases hvp : v = p
    · rw [if_neg (by simp [hvp])]
      rcases List.mem_cons.mp hx with h | h
      · exact Or.inl (h.trans hvp)
      · exact mem_dedupGo rest p x h
    · rw [if_pos hvp]
      rcases List.mem_cons.mp hx with h | h
      · subst h
        exact Or.inr (List.mem_cons_self x _)
      · rcases mem_dedupGo rest v x h with h2 | h2
        · subst h2
          exact Or.inr (List.mem_cons_self x _)
        · exact Or.inr (List.mem_cons_of_mem v h2)

theorem mem_Dedup (sl : List Int) (x : Int) (hx : x ∈ sl) : x ∈ Dedup sl := by
  unfold Dedup
  cases hsort : List.insertionSort (· ≤ ·) sl with
  | nil =>
    have hmem : x ∈ List.insertionSort (· ≤ ·) sl :=
      (List.Perm.mem_iff (List.perm_insertionSort (· ≤ ·) sl)).mpr hx
    rw [hsort] at hmem
    exact absurd hmem (List.not_mem_nil x)
  | cons v rest =>
    have hmem : x ∈ v :: rest := by
      rw [← hsort]
      exact (List.Perm.mem_iff (List.perm_insertionSort (· ≤ ·) sl)).mpr hx
    show x ∈ dedupGo (v + 1) (v :: rest)
    rw [dedupGo, if_pos (by omega : v ≠ v + 1)]
    rcases List.mem_cons.mp hmem with h | h
    · subst h
      exact List.mem_cons_self x _
    · rcases mem_dedupGo rest v x h with h2 | h2
      · subst h2
        exact List.mem_cons_self x _
      · exact List.mem_cons_of_mem v h2

theorem stage_mem_pair (rs : List (Int × Int)) (i : Interval) (hi : i ∈ stage rs) :
    (i.seg.From, i.seg.To) ∈ rs := by
  rw [stage] at hi
  rcases List.mem_map.mp hi with ⟨p, hp, hpe⟩
  have hsnd : p.2 ∈ rs := by
    have h2 := List.mem_map_of_mem Prod.snd hp
    rwa [List.enum_map_snd] at h2
  subst hpe
  exact hsnd

theorem stage_valid (rs : List (Int × Int)) (hv : ∀ p ∈ rs, p.1 ≤ p.2)
    (i : Interval) (hi : i ∈ stage rs) : i.seg.From ≤ i.seg.To :=
  hv (i.seg.From, i.seg.To) (stage_mem_pair rs i hi)

theorem from_mem_Dedup (base : List Interval) (i : Interval) (hi : i ∈ base) :
    i.seg.From ∈ Dedup (endpointValues base) := by
  apply mem_Dedup
  rw [endpointValues]
  exact List.mem_append_left _ (List.mem_map_of_mem _ hi)

theorem to_mem_Dedup (base : List Interval) (i : Interval) (hi : i ∈ base) :
    i.seg.To ∈ Dedup (endpointValues base) := by
  apply mem_Dedup
  rw [endpointValues]
  exact List.mem_append_right _ (List.mem_map_of_mem _ hi)

theorem subtree_within : ∀ t : tree, childrenSub t → ∀ sub ∈ subtrees t,
    t.sg.From ≤ sub.sg.From ∧ sub.sg.To ≤ t.sg.To := by
  intro t
  induction t with
  | nil => intro _ sub hsub; simp [subtrees] at hsub
  | node s l r ov ihl ihr =>
    intro hc sub hsub
    rw [subtrees_node] at hsub
    rcases List.mem_cons.mp hsub with h | h
    · subst h
      exact ⟨le_refl _, le_refl _⟩
    rcases List.mem_append.mp h with h2 | h2
    · have hlnil : l ≠ .nil := by
        intro he
        rw [he] at h2
        simp [subtrees] at h2
      have hb := hc.1 hlnil
      have hw := ihl hc.2.2.1 sub h2
      exact ⟨le_trans hb.1 hw.1, le_trans hw.2 hb.2⟩
    · have hrnil : r ≠ .nil := by
        intro he
        rw [he] at h2
        simp [subtrees] at h2
      have hb := hc.2.1 hrnil
      have hw := ihr hc.2.2.2 sub h2
      exact ⟨le_trans hb.1 hw.1, le_trans hw.2 hb.2⟩

theorem leaves_within : ∀ t : tree, childrenSub t → ∀ sgm ∈ treeLeaves t,
    t.sg.From ≤ sgm.From ∧ sgm.To ≤ t.sg.To := by
  intro t
  induction t with
  | nil => intro _ sgm hsgm; simp [treeLeaves] at hsgm
  | node s l r ov ihl ihr =>
    intro hc sgm hsgm
    by_cases hleaf : (l.isNil && r.isNil) = true
    · rw [treeLeaves_node, if_pos hleaf, List.mem_singleton] at hsgm
      subst hsgm
      exact ⟨le_refl _, le_refl _⟩
    · rw [treeLeaves_node, if_neg hleaf] at hsgm
      rcases List.mem_append.mp hsgm with h2 | h2
      · have hlnil : l ≠ .nil := by
          intro he
          rw [he] at h2
          simp [treeLeaves] at h2
        have hb := hc.1 hlnil
        have hw := ihl hc.2.2.1 sgm h2
        exact ⟨le_trans hb.1 hw.1, le_trans hw.2 hb.2⟩
      · have hrnil : r ≠ .nil := by
          intro he
          rw [he] at h2
          simp [treeLeaves] at h2
        have hb := hc.2.1 hrnil
        have hw := ihr hc.2.2.2 sgm h2
        exact ⟨le_trans hb.1 hw.1, le_trans hw.2 hb.2⟩

theorem leaves_valid : ∀ t : tree, validSegs t → ∀ sgm ∈ treeLeaves t,
    sgm.From ≤ sgm.To := by
  intro t
  induction t with
  | nil => intro _ sgm hsgm; simp [treeLeaves] at hsgm
  | node s l r ov ihl ihr =>
    intro hv sgm hsgm
    by_cases hleaf : (l.isNil && r.isNil) = true
    · rw [treeLeaves_node, if_pos hleaf, List.mem_singleton] at hsgm
      subst hsgm
      exact hv.1
    · rw [treeLeaves_node, if_neg hleaf] at hsgm
      rcases List.mem_append.mp hsgm with h2 | h2
      · exact ihl hv.2.1 sgm h2
      · exact ihr hv.2.2 sgm h2

theorem querySingle_sound (a b : Int) : ∀ t : tree, ∀ i ∈ querySingle t a b,
    ∃ sub ∈ subtrees t, i ∈ sub.ovOf ∧ sub.sg.Disjoint a b = false := by
  intro t
  induction t with
  | nil => intro i hi; simp [querySingle] at hi
  | node s l r ov ihl ihr =>
    intro i hi
    rw [querySingle] at hi
    by_cases hd : s.Disjoint a b = true
    · rw [if_neg (by simp [hd])] at hi
      exact absurd hi (List.not_mem_nil i)
    · have hdf : s.Disjoint a b = false := by simpa using hd
      rw [if_pos (by rw [hdf]; rfl)] at hi
      rcases List.mem_append.mp hi with h2 | h2
      · rcases List.mem_append.mp h2 with h3 | h3
        · refine ⟨tree.node s l r ov, ?_, h3, hdf⟩
          rw [subtrees_node]
          exact List.mem_cons_self _ _
        · rcases ihr i h3 with ⟨sub, hsub, hmem, hsd⟩
          refine ⟨sub, ?_, hmem, hsd⟩
          rw [subtrees_node]
          exact List.mem_cons_of_mem _ (List.mem_append_right _ hsub)
      · rcases ihl i h2 with ⟨sub, hsub, hmem, hsd⟩
        refine ⟨sub, ?_, hmem, hsd⟩
        rw [subtrees_node]
        exact List.mem_cons_of_mem _ (List.mem_append_left _ hsub)

theorem querySingle_reaches (a b : Int) : ∀ t : tree, childrenSub t →
    ∀ sub ∈ subtrees t, ∀ i ∈ sub.ovOf, sub.sg.Disjoint a b = false →
    i ∈ querySingle t a b := by
  intro t
  induction t with
  | nil => intro _ sub hsub; simp [subtrees] at hsub
  | node s l r ov ihl ihr =>
    intro hc sub hsub i hmem hsd
    have hw := subtree_within _ hc sub hsub
    have hw1 : s.From ≤ sub.sg.From := hw.1
    have hw2 : sub.sg.To ≤ s.To := hw.2
    have hself : s.Disjoint a b = false := by
      simp only [Segment.Disjoint, Bool.or_eq_false_iff, decide_eq_false_iff_not,
        not_lt] at hsd ⊢
      omega
    have hcond : (!(s.Disjoint a b)) = true := by rw [hself]; rfl
    rw [querySingle, if_pos hcond]
    rw [subtrees_node] at hsub
    rcases List.mem_cons.mp hsub with h | h
    · subst h
      exact List.mem_append_left _ (List.mem_append_left _ hmem)
    rcases List.mem_append.mp h with h2 | h2
    · exact List.mem_append_right _ (ihl hc.2.2.1 sub h2 i hmem hsd)
    · exact List.mem_append_left _ (List.mem_append_right _ (ihr hc.2.2.2 sub h2 i hmem hsd))

theorem point_mem_altLeaves : ∀ (l : List Int) (p : Int), p ∈ l →
    (⟨p, p⟩ : Segment) ∈ altLeaves l
  | [], p, hp => absurd hp (List.not_mem_nil p)
  | [q], p, hp => by
    rw [List.mem_singleton] at hp
    subst hp
    simp [altLeaves]
  | q :: r :: rest, p, hp => by
    show (⟨p, p⟩ : Segment) ∈ ⟨q, q⟩ :: ⟨q, r⟩ :: altLeaves (r :: rest)
    rcases List.mem_cons.mp hp with h | h
    · subst h
      exact List.mem_cons_self _ _
    · exact List.mem_cons_of_mem _
        (List.mem_cons_of_mem _ (point_mem_altLeaves (r :: rest) p h))

theorem gap_mem_altLeaves : ∀ (l1 : List Int) (p q : Int) (l2 : List Int),
    (⟨p, q⟩ : Segment) ∈ altLeaves (l1 ++ p :: q :: l2)
  | [], p, q, l2 => by
    rw [List.nil_append]
    show (⟨p, q⟩ : Segment) ∈ ⟨p, p⟩ :: ⟨p, q⟩ :: altLeaves (q :: l2)
    exact List.mem_cons_of_mem _ (List.mem_cons_self _ _)
  | a :: l1, p, q, l2 => by
    have ih := gap_mem_altLeaves l1 p q l2
    rw [List.cons_append]
    cases hcons : l1 ++ p :: q :: l2 with
    | nil => exact absurd hcons (by simp)
    | cons b tl =>
      rw [hcons] at ih
      show (⟨p, q⟩ : Segment) ∈ ⟨a, a⟩ :: ⟨a, b⟩ :: altLeaves (b :: tl)
      exact List.mem_cons_of_mem _ (List.mem_cons_of_mem _ ih)

theorem exists_adjacent : ∀ (ep : List Int), List.Sorted (· < ·) ep →
    ∀ x : Int, (∃ e ∈ ep, e ≤ x) → (∃ e ∈ ep, x ≤ e) → x ∉ ep →
    ∃ l1 p q l2, ep = l1 ++ p :: q :: l2 ∧ p < x ∧ x < q
  | [], _, x, hlo, _, _ => by
    rcases hlo with ⟨e, he, _⟩
    exact absurd he (List.not_mem_nil e)
  | [e], _, x, hlo, hhi, hnm => by
    rcases hlo with ⟨e1, he1, hle1⟩
    rcases hhi with ⟨e2, he2, hle2⟩
    rw [List.mem_singleton] at he1 he2
    rw [he1] at hle1
    rw [he2] at hle2
    have hxe : x = e := le_antisymm hle2 hle1
    exact absurd (by rw [hxe]; exact List.mem_singleton_self e : x ∈ [e]) hnm
  | e1 :: e2 :: rest, hs, x, hlo, hhi, hnm => by
    have hs2 : List.Sorted (· < ·) (e2 :: rest) := hs.of_cons
    have h12 : e1 < e2 := (List.sorted_cons.mp hs).1 e2 (List.mem_cons_self e2 rest)
    by_cases hx2 : x < e2
    · have he1x : e1 ≤ x := by
        rcases hlo with ⟨e, he, hex⟩
        rcases List.mem_cons.mp he with h | h
        · rw [h] at hex
          exact hex
        · have he2le : e2 ≤ e := by
            rcases List.mem_cons.mp h with h2 | h2
            · exact le_of_eq h2.symm
            · exact le_of_lt ((List.sorted_cons.mp hs2).1 e h2)
          omega
      have he1lt : e1 < x := lt_of_le_of_ne he1x
        (fun he => hnm (by rw [← he]; exact List.mem_cons_self _ _))
      exact ⟨[], e1, e2, rest, by simp, he1lt, hx2⟩
    · have he2x : e2 ≤ x := le_of_not_lt hx2
      have hhi2 : ∃ e ∈ e2 :: rest, x ≤ e := by
        rcases hhi with ⟨e, he, hxe⟩
        rcases List.mem_cons.mp he with h | h
        · exfalso
          rw [h] at hxe
          omega
        · exact ⟨e, h, hxe⟩
      have hnm2 : x ∉ e2 :: rest := fun h => hnm (List.mem_cons_of_mem e1 h)
      rcases exists_adjacent (e2 :: rest) hs2 x ⟨e2, List.mem_cons_self e2 rest, he2x⟩
        hhi2 hnm2 with ⟨l1, p, q, l2, heq, hp, hq⟩
      exact ⟨e1 :: l1, p, q, l2, by rw [List.cons_append, ← heq], hp, hq⟩

theorem sorted_split_le (l1 : List Int) (p q : Int) (l2 : List Int)
    (hs : List.Sorted (· < ·) (l1 ++ p :: q :: l2)) (lo : Int)
    (hlo : lo ∈ l1 ++ p :: q :: l2) (hlt : lo < q) : lo ≤ p := by
  have hsp : List.Pairwise (· < ·) (l1 ++ p :: q :: l2) := hs
  rw [List.pairwise_append] at hsp
  rcases List.mem_append.mp hlo with h | h
  · exact le_of_lt (hsp.2.2 lo h p (List.mem_cons_self p _))
  · rcases List.mem_cons.mp h with h2 | h2
    · exact le_of_eq h2
    rcases List.mem_cons.mp h2 with h3 | h3
    · exfalso
      rw [h3] at hlt
      exact lt_irrefl q hlt
    · exfalso
      have hq := (List.pairwise_cons.mp (List.pairwise_cons.mp hsp.2.1).2).1 lo h3
      omega

theorem sorted_split_ge (l1 : List Int) (p q : Int) (l2 : List Int)
    (hs : List.Sorted (· < ·) (l1 ++ p :: q :: l2)) (hi : Int)
    (hhi : hi ∈ l1 ++ p :: q :: l2) (hgt : p < hi) : q ≤ hi := by
  have hsp : List.Pairwise (· < ·) (l1 ++ p :: q :: l2) := hs
  rw [List.pairwise_append] at hsp
  rcases List.mem_append.mp hhi with h | h
  · exfalso
    have hlt := hsp.2.2 hi h p (List.mem_cons_self p _)
    omega
  · rcases List.mem_cons.mp h with h2 | h2
    · exfalso
      rw [h2] at hgt
      exact lt_irrefl p hgt
    rcases List.mem_cons.mp h2 with h3 | h3
    · exact le_of_eq h3.symm
    · have hq := (List.pairwise_cons.mp (List.pairwise_cons.mp hsp.2.1).2).1 hi h3
      exact le_of_lt hq

theorem exists_leaf_between (ep : List Int) (hs : List.Sorted (· < ·) ep)
    (x lo hi : Int) (hlo : lo ∈ ep) (hhi : hi ∈ ep) (h1 : lo ≤ x) (h2 : x ≤ hi) :
    ∃ L ∈ altLeaves ep, lo ≤ L.From ∧ L.To ≤ hi ∧ L.From ≤ x ∧ x ≤ L.To := by
  by_cases hxm : x ∈ ep
  · exact ⟨⟨x, x⟩, point_mem_altLeaves ep x hxm, h1, h2, le_refl x, le_refl x⟩
  · rcases exists_adjacent ep hs x ⟨lo, hlo, h1⟩ ⟨hi, hhi, h2⟩ hxm
      with ⟨l1, p, q, l2, heq, hpx, hxq⟩
    subst heq
    refine ⟨⟨p, q⟩, gap_mem_altLeaves l1 p q l2, ?_, ?_, le_of_lt hpx, le_of_lt hxq⟩
    · exact sorted_split_le l1 p q l2 hs lo hlo (lt_of_le_of_lt h1 hxq)
    · exact sorted_split_ge l1 p q l2 hs hi hhi (lt_of_lt_of_le hpx h2)

theorem insert_attaches (i : Interval) : ∀ t : tree, validSegs t → childrenSub t →
    ∀ L ∈ treeLeaves t, i.seg.From ≤ L.From → L.To ≤ i.seg.To →
    ∃ sub ∈ subtrees (insertInterval t i), i ∈ sub.ovOf ∧
      sub.sg.From ≤ L.From ∧ L.To ≤ sub.sg.To := by
  intro t
  induction t with
  | nil => intro _ _ L hL; simp [treeLeaves] at hL
  | node s l r ov ihl ihr =>
    intro hv hc L hL hF hT
    have hw := leaves_within _ hc L hL
    simp only [tree.sg] at hw
    rw [insertInterval]
    by_cases hsub : s.subsetOf i.seg = true
    · rw [if_pos hsub]
      refine ⟨tree.node s l r (ov ++ [i]), ?_, ?_, hw.1, hw.2⟩
      · rw [subtrees_node]
        exact List.mem_cons_self _ _
      · show i ∈ ov ++ [i]
        exact List.mem_append_right _ (List.mem_singleton_self i)
    · rw [if_neg hsub]
      by_cases hleaf : (l.isNil && r.isNil) = true
      · exfalso
        rw [treeLeaves_node, if_pos hleaf, List.mem_singleton] at hL
        subst hL
        apply hsub
        simp only [Segment.subsetOf, Bool.and_eq_true, decide_eq_true_eq, ge_iff_le]
        exact ⟨hF, hT⟩
      · have hLval : L.From ≤ L.To := leaves_valid _ hv L hL
        rw [treeLeaves_node, if_neg hleaf] at hL
        rcases List.mem_append.mp hL with h2 | h2
        · have hlnil : l ≠ .nil := by
            intro he
            rw [he] at h2
            simp [treeLeaves] at h2
          obtain ⟨hlw1, hlw2⟩ := leaves_within l hc.2.2.1 L h2
          have hint : l.sg.intersectsWith i.seg = true := by
            simp only [Segment.intersectsWith, Bool.or_eq_true, Bool.and_eq_true,
              decide_eq_true_eq]
            exact Or.inl ⟨by omega, by omega⟩
          have hcond : (!l.isNil && l.sg.intersectsWith i.seg) = true := by
            rw [(isNil_eq_false_iff l).mpr hlnil, hint]
            rfl
          rw [if_pos hcond]
          rcases ihl hv.2.1 hc.2.2.1 L h2 hF hT with ⟨sub, hsubm, hmem, hb1, hb2⟩
          refine ⟨sub, ?_, hmem, hb1, hb2⟩
          rw [subtrees_node]
          exact List.mem_cons_of_mem _ (List.mem_append_left _ hsubm)
        · have hrnil : r ≠ .nil := by
            intro he
            rw [he] at h2
            simp [treeLeaves] at h2
          obtain ⟨hrw1, hrw2⟩ := leaves_within r hc.2.2.2 L h2
          have hint : r.sg.intersectsWith i.seg = true := by
            simp only [Segment.intersectsWith, Bool.or_eq_true, Bool.and_eq_true,
              decide_eq_true_eq]
            exact Or.inl ⟨by omega, by omega⟩
          have hcond : (!r.isNil && r.sg.intersectsWith i.seg) = true := by
            rw [(isNil_eq_false_iff r).mpr hrnil, hint]
            rfl
          rw [if_pos hcond]
          rcases ihr hv.2.2 hc.2.2.2 L h2 hF hT with ⟨sub, hsubm, hmem, hb1, hb2⟩
          refine ⟨sub, ?_, hmem, hb1, hb2⟩
          rw [subtrees_node]
          exact List.mem_cons_of_mem _ (List.mem_append_right _ hsubm)

/-- For every staged range stack whose ranges are valid (from ≤ to) and
every probe range with a ≤ b, the id-set returned by `querySingle` on the
sequentially built tree equals the id-set of the serial oracle's linear
scan.  Together with the concrete mtree divergence this isolates the
equivalence failure in the parallel builder: the sequential stree satisfies
the oracle property on the intended domain. -/
theorem stree_query_oracle_agree (rs : List (Int × Int)) (hne : rs ≠ [])
    (hvr : ∀ p ∈ rs, p.1 ≤ p.2) (a b : Int) (hab : a ≤ b) :
    idset (querySingle (buildTreeRoot (stage rs)) a b) =
      idset (serialQuery (stage rs) a b) := by
  have hbase := stage_ne_nil rs hne
  have hev := endpointValues_ne_nil _ hbase
  obtain ⟨hd_ne, hd_sorted, _⟩ := Dedup_spec _ hev
  have hd_sorted_le : List.Sorted (· ≤ ·) (Dedup (endpointValues (stage rs))) :=
    hd_sorted.imp (fun hab2 => le_of_lt hab2)
  obtain ⟨x0, xs, hxx⟩ : ∃ x0 xs, Dedup (endpointValues (stage rs)) = x0 :: xs :=
    List.exists_cons_of_ne_nil hd_ne
  have hleaves_ne : elementaryIntervals (Dedup (endpointValues (stage rs))) ≠ [] := by
    rw [elem_eq_alt, hxx]
    exact altLeaves_ne_nil x0 xs
  have hchain : List.Chain' (fun a2 b2 => b2.From = a2.To)
      (elementaryIntervals (Dedup (endpointValues (stage rs)))) := by
    rw [elem_eq_alt]
    exact altLeaves_chain _
  have hvalid : ∀ s ∈ elementaryIntervals (Dedup (endpointValues (stage rs))),
      s.From ≤ s.To := by
    rw [elem_eq_alt]
    exact altLeaves_valid _ hd_sorted_le
  obtain ⟨hnl, hlv, hsg, hinv, hval, hcs, hov⟩ :=
    insertNodes_spec _ hleaves_ne hchain hvalid
  have hT : buildTreeRoot (stage rs) = (stage rs).foldl insertInterval
      (insertNodes (elementaryIntervals (Dedup (endpointValues (stage rs))))) := rfl
  have hP := foldl_insert_preserve (stage rs)
    (insertNodes (elementaryIntervals (Dedup (endpointValues (stage rs)))))
  have hsubinv : SubsetInv (buildTreeRoot (stage rs)) := by
    rw [hT]
    exact (foldl_insert_canonical (stage rs) _ (allov_subsetInv _ hov)
      (fun i _ => allov_not_occurs _ hov i) (stage_nodup rs)).1
  have hcsT : childrenSub (buildTreeRoot (stage rs)) := by
    rw [hT]
    exact hP.2.2.2.2.2.1 hcs
  apply Finset.ext
  intro n
  rw [mem_idset, mem_idset]
  constructor
  · rintro ⟨i, hiq, hid⟩
    rcases querySingle_sound a b _ i hiq with ⟨sub, hsubm, hmem, hdisj⟩
    have hibase : i ∈ stage rs := by
      have hoc : Occurs i (buildTreeRoot (stage rs)) := ⟨sub, hsubm, hmem⟩
      rw [hT] at hoc
      rcases occurs_foldl _ _ _ hoc with h2 | h2
      · exact absurd h2 (allov_not_occurs _ hov i)
      · exact h2
    have hso := hsubinv sub hsubm i hmem
    have hidisj : i.seg.Disjoint a b = false := by
      simp only [Segment.subsetOf, Bool.and_eq_true, decide_eq_true_eq, ge_iff_le] at hso
      simp only [Segment.Disjoint, Bool.or_eq_false_iff, decide_eq_false_iff_not,
        not_lt] at hdisj ⊢
      omega
    have himem : i ∈ serialQuery (stage rs) a b := by
      show i ∈ (stage rs).filter (fun j => !(j.seg.Disjoint a b))
      exact List.mem_filter.mpr ⟨hibase, by simp [hidisj]⟩
    exact ⟨i, himem, hid⟩
  · rintro ⟨i, hiq, hid⟩
    have hiq2 : i ∈ (stage rs).filter (fun j => !(j.seg.Disjoint a b)) := hiq
    rcases List.mem_filter.mp hiq2 with ⟨hibase, hpd⟩
    have hnd : i.seg.Disjoint a b = false := by simpa using hpd
    have hai : a ≤ i.seg.To ∧ i.seg.From ≤ b := by
      simp only [Segment.Disjoint, Bool.or_eq_false_iff, decide_eq_false_iff_not,
        not_lt] at hnd
      exact hnd
    have hiv : i.seg.From ≤ i.seg.To := stage_valid rs hvr i hibase
    obtain ⟨x, hx1, hx2, hx3, hx4⟩ :
        ∃ x : Int, i.seg.From ≤ x ∧ a ≤ x ∧ x ≤ i.seg.To ∧ x ≤ b :=
      ⟨max i.seg.From a, le_max_left _ _, le_max_right _ _,
        max_le hiv hai.1, max_le hai.2 hab⟩
    have hFm : i.seg.From ∈ Dedup (endpointValues (stage rs)) :=
      from_mem_Dedup _ i hibase
    have hTm : i.seg.To ∈ Dedup (endpointValues (stage rs)) :=
      to_mem_Dedup _ i hibase
    rcases exists_leaf_between _ hd_sorted x _ _ hFm hTm hx1 hx3
      with ⟨L, hLmem, hLF, hLT, hLx1, hLx2⟩
    rcases List.append_of_mem hibase with ⟨u1, u2, hsplit⟩
    have ht1P := foldl_insert_preserve u1
      (insertNodes (elementaryIntervals (Dedup (endpointValues (stage rs)))))
    have hlv1 : treeLeaves (u1.foldl insertInterval
        (insertNodes (elementaryIntervals (Dedup (endpointValues (stage rs)))))) =
        altLeaves (Dedup (endpointValues (stage rs))) := by
      rw [ht1P.1, hlv, elem_eq_alt]
    rcases insert_attaches i _ (ht1P.2.2.2.2.1 hval) (ht1P.2.2.2.2.2.1 hcs) L
      (by rw [hlv1]; exact hLmem) hLF hLT with ⟨sub, hsubm, hmem, hb1, hb2⟩
    rcases attached_foldl i sub.sg u2 _ ⟨sub, hsubm, hmem, rfl⟩
      with ⟨sub2, hsub2m, hmem2, hsg2⟩
    have hTfold : buildTreeRoot (stage rs) = u2.foldl insertInterval
        (insertInterval (u1.foldl insertInterval
          (insertNodes (elementaryIntervals (Dedup (endpointValues (stage rs)))))) i) := by
      rw [hT, hsplit, List.foldl_append, List.foldl_cons]
    have hdisj2 : sub2.sg.Disjoint a b = false := by
      simp only [hsg2, Segment.Disjoint, Bool.or_eq_false_iff, decide_eq_false_iff_not,
        not_lt]
      constructor
      · omega
      · omega
    have hsub2T : sub2 ∈ subtrees (buildTreeRoot (stage rs)) := by
      rw [hTfold]
      exact hsub2m
    exact ⟨i, querySingle_reaches a b _ hcsT sub2 hsub2T i hmem2 hdisj2, hid⟩

/-! ### Claim theorems -/

unseal insertNodes minsertNodes in
/-- C1: the claim states that for every staged interval set and probe range
the id-set of `Query` on the built tree (sequential stree or parallel
mtree) equals the id-set of the brute-force oracle.  The mtree code
violates this: with staged intervals (1,5),(10,20),(5,10) the probe (6,7)
overlaps the staged interval id 2 = [5,10] and the oracle (and the
sequential stree) return {2}, but the mtree returns the empty set, because
its endpoint-splitting builder creates no node covering the gap between
endpoints 5 and 10, so interval 2 is attached only to the point leaves
[5,5] and [10,10], both disjoint from (6,7). -/
theorem claim1_mtree_oracle_divergence :
    idset (querySingle (mbuildTreeRoot (stage [(1, 5), (10, 20), (5, 10)])) 6 7) = ∅ ∧
    idset (serialQuery (stage [(1, 5), (10, 20), (5, 10)]) 6 7) = {2} ∧
    idset (querySingle (buildTreeRoot (stage [(1, 5), (10, 20), (5, 10)])) 6 7) = {2} := by
  decide

/-- C2: for every sorted duplicate-free endpoint list p1 < ... < pk with
k ≥ 1, the elementary decomposition returns exactly the alternating leaf
sequence [p1,p1],[p1,p2],[p2,p2],[p2,p3],...,[pk,pk] in this order (for
k = 1 the single degenerate segment [p1,p1]), of length 2k-1.  `altLeaves`
is that alternating sequence, written as the recursion from the spec. -/
theorem claim2_elementary_decomposition (l : List Int) (h1 : l ≠ [])
    (_h2 : List.Sorted (· < ·) l) :
    elementaryIntervals l = altLeaves l ∧
    (elementaryIntervals l).length = 2 * l.length - 1 :=
  ⟨elem_eq_alt l, by rw [elem_eq_alt l]; exact altLeaves_length l h1⟩

theorem claim2_witness :
    (([1, 3] : List Int) ≠ [] ∧ List.Sorted (· < ·) ([1, 3] : List Int)) ∧
    (elementaryIntervals [1, 3] = altLeaves [1, 3] ∧
     (elementaryIntervals [1, 3]).length = 2 * ([1, 3] : List Int).length - 1) :=
  ⟨⟨by decide, by decide⟩, claim2_elementary_decomposition [1, 3] (by decide) (by decide)⟩

/-- C6: for every built tree (the sequential build of any non-empty staged
stack) and every batch of probe ranges (equal-length from/to arrays,
modelled as a list of pairs), the id-set returned by QueryArray equals the
union over the ranges of the id-sets returned by the single-range Query. -/
theorem claim6_batched_union (rs : List (Int × Int)) (_hne : rs ≠ [])
    (qs : List (Int × Int)) :
    idset (queryMulti (buildTreeRoot (stage rs)) qs) =
      qs.toFinset.biUnion
        (fun q => idset (querySingle (buildTreeRoot (stage rs)) q.1 q.2)) := by
  ext n
  rw [Finset.mem_biUnion]
  constructor
  · intro hn
    rcases (mem_ids_queryMulti _ _ _).mp hn with ⟨q, hq, hmem⟩
    exact ⟨q, List.mem_toFinset.mpr hq, hmem⟩
  · rintro ⟨q, hq, hmem⟩
    exact (mem_ids_queryMulti _ _ _).mpr ⟨q, List.mem_toFinset.mp hq, hmem⟩

theorem claim6_witness :
    (([(1, 5)] : List (Int × Int)) ≠ []) ∧
    idset (queryMulti (buildTreeRoot (stage [(1, 5)])) [(0, 2), (4, 6)]) =
      ([(0, 2), (4, 6)] : List (Int × Int)).toFinset.biUnion
        (fun q => idset (querySingle (buildTreeRoot (stage [(1, 5)])) q.1 q.2)) :=
  ⟨by decide, claim6_batched_union [(1, 5)] (by decide) [(0, 2), (4, 6)]⟩

unseal minsertNodes in
/-- C3 counterexample: the claim asserts that in every tree produced by
BuildTree (including the parallel mtree builder) the segment of every node
equals the union of the segments of its descendant leaves, with no gap
between the coverage of the two children.  In the mtree built from staged
intervals (1,3),(5,9), the node with segment [1,3] has the two leaves
[1,1] and [3,3]; the integer 2 lies in the segment of the node but in no
descendant leaf. -/
theorem claim3_counterexample :
    (tree.node ⟨1, 3⟩ (tree.node ⟨1, 1⟩ .nil .nil []) (tree.node ⟨3, 3⟩ .nil .nil [])
        [⟨0, ⟨1, 3⟩⟩]) ∈ subtrees (mbuildTreeRoot (stage [(1, 3), (5, 9)])) ∧
    inSeg 2 ⟨1, 3⟩ = true ∧
    ∀ s ∈ treeLeaves (tree.node ⟨1, 3⟩ (tree.node ⟨1, 1⟩ .nil .nil [])
        (tree.node ⟨3, 3⟩ .nil .nil []) [⟨0, ⟨1, 3⟩⟩]), ¬ inSeg 2 s = true := by
  decide

theorem built_tree_facts (rs : List (Int × Int)) (hne : rs ≠ []) :
    Inv (buildTreeRoot (stage rs)) ∧
    treeLeaves (buildTreeRoot (stage rs)) =
      elementaryIntervals (Endpoints (stage rs)).1 ∧
    validSegs (buildTreeRoot (stage rs)) ∧
    childrenSub (buildTreeRoot (stage rs)) ∧
    ZeroTwo (mbuildTreeRoot (stage rs)) ∧
    validSegs (mbuildTreeRoot (stage rs)) ∧
    childrenSub (mbuildTreeRoot (stage rs)) := by
  have hbase := stage_ne_nil rs hne
  have hev := endpointValues_ne_nil _ hbase
  obtain ⟨hd_ne, hd_sorted, _⟩ := Dedup_spec _ hev
  have hd_sorted_le : List.Sorted (· ≤ ·) (Dedup (endpointValues (stage rs))) :=
    hd_sorted.imp (fun hab => le_of_lt hab)
  obtain ⟨x, xs, hxx⟩ : ∃ x xs, Dedup (endpointValues (stage rs)) = x :: xs :=
    List.exists_cons_of_ne_nil hd_ne
  have hleaves_ne : elementaryIntervals (Dedup (endpointValues (stage rs))) ≠ [] := by
    rw [elem_eq_alt, hxx]
    exact altLeaves_ne_nil x xs
  have hchain : List.Chain' (fun a b => b.From = a.To)
      (elementaryIntervals (Dedup (endpointValues (stage rs)))) := by
    rw [elem_eq_alt]
    exact altLeaves_chain _
  have hvalid : ∀ s ∈ elementaryIntervals (Dedup (endpointValues (stage rs))),
      s.From ≤ s.To := by
    rw [elem_eq_alt]
    exact altLeaves_valid _ hd_sorted_le
  obtain ⟨hnl, hlv, hsg, hinv, hval, hcs, hov⟩ :=
    insertNodes_spec _ hleaves_ne hchain hvalid
  obtain ⟨mnl, msg, mz, mval, mcs, mov⟩ :=
    minsertNodes_spec (Endpoints (stage rs)).2.2 (Dedup (endpointValues (stage rs)))
      hd_ne hd_sorted_le
  have hP := foldl_insert_preserve (stage rs)
    (insertNodes (elementaryIntervals (Dedup (endpointValues (stage rs)))))
  have hQ := foldl_insertCmp_preserve (stage rs)
    (minsertNodes (Endpoints (stage rs)).2.2 (Dedup (endpointValues (stage rs))))
  refine ⟨?_, ?_, ?_, ?_, ?_, ?_, ?_⟩
  · show Inv ((stage rs).foldl insertInterval
      (insertNodes (elementaryIntervals (Endpoints (stage rs)).1)))
    rw [Endpoints_fst]
    exact hP.2.2.2.1 hinv
  · show treeLeaves ((stage rs).foldl insertInterval
      (insertNodes (elementaryIntervals (Endpoints (stage rs)).1))) =
      elementaryIntervals (Endpoints (stage rs)).1
    rw [Endpoints_fst]
    rw [hP.1, hlv]
  · show validSegs ((stage rs).foldl insertInterval
      (insertNodes (elementaryIntervals (Endpoints (stage rs)).1)))
    rw [Endpoints_fst]
    exact hP.2.2.2.2.1 hval
  · show childrenSub ((stage rs).foldl insertInterval
      (insertNodes (elementaryIntervals (Endpoints (stage rs)).1)))
    rw [Endpoints_fst]
    exact hP.2.2.2.2.2.1 hcs
  · show ZeroTwo ((stage rs).foldl insertIntervalCmp
      (minsertNodes (Endpoints (stage rs)).2.2 (Endpoints (stage rs)).1))
    rw [Endpoints_fst]
    exact hQ.2.2.2.2.2.2 mz
  · show validSegs ((stage rs).foldl insertIntervalCmp
      (minsertNodes (Endpoints (stage rs)).2.2 (Endpoints (stage rs)).1))
    rw [Endpoints_fst]
    exact hQ.2.2.2.2.1 mval
  · show childrenSub ((stage rs).foldl insertIntervalCmp
      (minsertNodes (Endpoints (stage rs)).2.2 (Endpoints (stage rs)).1))
    rw [Endpoints_fst]
    exact hQ.2.2.2.2.2.1 mcs

/-- C3 (amended): in every tree produced by the sequential BuildTree, every
node has zero or two children, the segment of every node covers exactly the
integers covered by its descendant leaves, the two children of an internal
node split the leaf sequence contiguously in index order with no gap
between their coverages (`Inv`), and the leaf sequence of the tree is
exactly the elementary-interval sequence; the parallel (mtree) builder
still gives every node zero or two children, but its nodes violate the
exact-coverage/no-gap property (see the counterexample). -/
theorem claim3_builder_invariants (rs : List (Int × Int)) (hne : rs ≠ []) :
    Inv (buildTreeRoot (stage rs)) ∧
    treeLeaves (buildTreeRoot (stage rs)) =
      elementaryIntervals (Endpoints (stage rs)).1 ∧
    ZeroTwo (mbuildTreeRoot (stage rs)) := by
  obtain ⟨h1, h2, _, _, h5, _, _⟩ := built_tree_facts rs hne
  exact ⟨h1, h2, h5⟩

/-- C4: for every built tree (sequential or parallel builder) and every
staged interval, canonical insertion attaches an interval to the overlap
list of a node only when the segment of the node is contained in (or equals)
the segment of the interval (`SubsetInv`), and no node holding a staged
interval has a strict descendant holding the same interval
(`NoDescHolds`) — descent stops at the first subset match. -/
theorem claim4_canonical_insertion (rs : List (Int × Int)) (hne : rs ≠ []) :
    (SubsetInv (buildTreeRoot (stage rs)) ∧
     ∀ i ∈ stage rs, NoDescHolds i (buildTreeRoot (stage rs))) ∧
    (SubsetInv (mbuildTreeRoot (stage rs)) ∧
     ∀ i ∈ stage rs, NoDescHolds i (mbuildTreeRoot (stage rs))) := by
  have hbase := stage_ne_nil rs hne
  have hev := endpointValues_ne_nil _ hbase
  obtain ⟨hd_ne, hd_sorted, _⟩ := Dedup_spec _ hev
  have hd_sorted_le : List.Sorted (· ≤ ·) (Dedup (endpointValues (stage rs))) :=
    hd_sorted.imp (fun hab => le_of_lt hab)
  obtain ⟨x, xs, hxx⟩ : ∃ x xs, Dedup (endpointValues (stage rs)) = x :: xs :=
    List.exists_cons_of_ne_nil hd_ne
  have hleaves_ne : elementaryIntervals (Dedup (endpointValues (stage rs))) ≠ [] := by
    rw [elem_eq_alt, hxx]
    exact altLeaves_ne_nil x xs
  have hchain : List.Chain' (fun a b => b.From = a.To)
      (elementaryIntervals (Dedup (endpointValues (stage rs)))) := by
    rw [elem_eq_alt]
    exact altLeaves_chain _
  have hvalid : ∀ s ∈ elementaryIntervals (Dedup (endpointValues (stage rs))),
      s.From ≤ s.To := by
    rw [elem_eq_alt]
    exact altLeaves_valid _ hd_sorted_le
  obtain ⟨_, _, _, _, _, _, hov⟩ := insertNodes_spec _ hleaves_ne hchain hvalid
  obtain ⟨_, _, _, mval, mcs, mov⟩ :=
    minsertNodes_spec (Endpoints (stage rs)).2.2 (Dedup (endpointValues (stage rs)))
      hd_ne hd_sorted_le
  constructor
  · have hfold := foldl_insert_canonical (stage rs)
      (insertNodes (elementaryIntervals (Dedup (endpointValues (stage rs)))))
      (allov_subsetInv _ hov) (fun i _ => allov_not_occurs _ hov i) (stage_nodup rs)
    constructor
    · show SubsetInv ((stage rs).foldl insertInterval
        (insertNodes (elementaryIntervals (Endpoints (stage rs)).1)))
      rw [Endpoints_fst]
      exact hfold.1
    · intro i hi
      show NoDescHolds i ((stage rs).foldl insertInterval
        (insertNodes (elementaryIntervals (Endpoints (stage rs)).1)))
      rw [Endpoints_fst]
      exact hfold.2.1 i hi
  · have heq : (stage rs).foldl insertIntervalCmp
        (minsertNodes (Endpoints (stage rs)).2.2 (Dedup (endpointValues (stage rs)))) =
        (stage rs).foldl insertInterval
        (minsertNodes (Endpoints (stage rs)).2.2 (Dedup (endpointValues (stage rs)))) :=
      foldl_cmp_eq_foldl_subset _ _ mval mcs
    have hfold := foldl_insert_canonical (stage rs)
      (minsertNodes (Endpoints (stage rs)).2.2 (Dedup (endpointValues (stage rs))))
      (allov_subsetInv _ mov) (fun i _ => allov_not_occurs _ mov i) (stage_nodup rs)
    constructor
    · show SubsetInv ((stage rs).foldl insertIntervalCmp
        (minsertNodes (Endpoints (stage rs)).2.2 (Endpoints (stage rs)).1))
      rw [Endpoints_fst, heq]
      exact hfold.1
    · intro i hi
      show NoDescHolds i ((stage rs).foldl insertIntervalCmp
        (minsertNodes (Endpoints (stage rs)).2.2 (Endpoints (stage rs)).1))
      rw [Endpoints_fst, heq]
      exact hfold.2.1 i hi

theorem claim4_witness :
    (([(0, 2)] : List (Int × Int)) ≠ []) ∧
    ((SubsetInv (buildTreeRoot (stage [(0, 2)])) ∧
      ∀ i ∈ stage [(0, 2)], NoDescHolds i (buildTreeRoot (stage [(0, 2)]))) ∧
     (SubsetInv (mbuildTreeRoot (stage [(0, 2)])) ∧
      ∀ i ∈ stage [(0, 2)], NoDescHolds i (mbuildTreeRoot (stage [(0, 2)])))) :=
  ⟨by decide, claim4_canonical_insertion [(0, 2)] (by decide)⟩

/-- C8: the two formulations of canonical insertion — the CompareTo-based
`insertInterval` (old stree revision, also used by the mtree) which always
descends into an existing child and prunes by disjointness at the entry of
the next call, and the subsetOf/intersectsWith-based `insertInterval`
(current stree revision) which pre-checks child intersection before
descending — produce identical trees (hence identical overlap-list
contents at every node) on every built tree, sequential or parallel, for
every interval. -/
theorem claim8_insert_equivalence (rs : List (Int × Int)) (hne : rs ≠ [])
    (i : Interval) :
    insertIntervalCmp (buildTreeRoot (stage rs)) i =
      insertInterval (buildTreeRoot (stage rs)) i ∧
    insertIntervalCmp (mbuildTreeRoot (stage rs)) i =
      insertInterval (mbuildTreeRoot (stage rs)) i := by
  obtain ⟨_, _, hv1, hc1, _, hv2, hc2⟩ := built_tree_facts rs hne
  exact ⟨insert_eqv i _ hv1 hc1, insert_eqv i _ hv2 hc2⟩

theorem claim8_witness :
    (([(2, 6)] : List (Int × Int)) ≠ []) ∧
    (insertIntervalCmp (buildTreeRoot (stage [(2, 6)])) ⟨1, ⟨2, 4⟩⟩ =
       insertInterval (buildTreeRoot (stage [(2, 6)])) ⟨1, ⟨2, 4⟩⟩ ∧
     insertIntervalCmp (mbuildTreeRoot (stage [(2, 6)])) ⟨1, ⟨2, 4⟩⟩ =
       insertInterval (mbuildTreeRoot (stage [(2, 6)])) ⟨1, ⟨2, 4⟩⟩) :=
  ⟨by decide, claim8_insert_equivalence [(2, 6)] (by decide) ⟨1, ⟨2, 4⟩⟩⟩

theorem claim3_witness :
    (([(0, 1)] : List (Int × Int)) ≠ []) ∧
    (Inv (buildTreeRoot (stage [(0, 1)])) ∧
     treeLeaves (buildTreeRoot (stage [(0, 1)])) =
       elementaryIntervals (Endpoints (stage [(0, 1)])).1 ∧
     ZeroTwo (mbuildTreeRoot (stage [(0, 1)]))) :=
  ⟨by decide, claim3_builder_invariants [(0, 1)] (by decide)⟩

unseal minsertNodes in
/-- C5: the claim states that the parallel QueryArray recursion carries
only the filtered subset of ranges into each child, exactly as the
sequential batched variant.  The multi.go code computes the filtered
hits but passes the ORIGINAL unfiltered slices to the recursive calls: on
the mtree built from (0,1),(4,5) with probe ranges (0,0),(5,5), every one
of the six recursive calls of the parallel variant receives the full
range list — including calls into subtrees for which (5,5) was already
proven disjoint — while the sequential variant passes the filtered
subset [(0,0)] from the third call on. -/
theorem claim5_unfiltered_carry :
    mqueryMultiCalls (mbuildTreeRoot (stage [(0, 1), (4, 5)])) [(0, 0), (5, 5)] =
      [[(0, 0), (5, 5)], [(0, 0), (5, 5)], [(0, 0), (5, 5)],
       [(0, 0), (5, 5)], [(0, 0), (5, 5)], [(0, 0), (5, 5)]] ∧
    queryMultiCalls (mbuildTreeRoot (stage [(0, 1), (4, 5)])) [(0, 0), (5, 5)] =
      [[(0, 0), (5, 5)], [(0, 0), (5, 5)], [(0, 0)], [(0, 0)], [(0, 0)], [(0, 0)]] := by
  decide

/-- C7: BuildTree on an empty staging stack fails with the fatal
empty-stack panic and builds nothing; Query and QueryArray called while no
root exists fail with the fatal no-root panic, for the sequential stree and
for the parallel mtree; in all cases the operation aborts with the error
and nothing is retried. -/
theorem claim7_preconditions (s1 s2 : Stree) (m1 m2 : Mtree) (a b : Int)
    (qs : List (Int × Int)) (h1 : s1.base = []) (h2 : s2.root = none)
    (hm1 : m1.base = []) (hm2 : m2.root = none) :
    s1.BuildTree = .error GoPanic.emptyStack ∧
    s2.Query a b = .error GoPanic.noRoot ∧
    s2.QueryArray qs = .error GoPanic.noRoot ∧
    m1.BuildTree = .error GoPanic.emptyStack ∧
    m2.Query a b = .error GoPanic.noRoot ∧
    m2.QueryArray qs = .error GoPanic.noRoot := by
  refine ⟨?_, ?_, ?_, ?_, ?_, ?_⟩
  · simp [Stree.BuildTree, h1]
  · simp [Stree.Query, h2]
  · simp [Stree.QueryArray, h2]
  · simp [Mtree.BuildTree, hm1]
  · simp [Mtree.Query, hm2]
  · simp [Mtree.QueryArray, hm2]

theorem claim7_witness :
    (Stree.mk 0 none [] 0 0).base = [] ∧ (Stree.mk 0 none [] 0 0).root = none ∧
    (Mtree.mk 0 none [] 0 0 false).base = [] ∧ (Mtree.mk 0 none [] 0 0 false).root = none ∧
    ((Stree.mk 0 none [] 0 0).BuildTree = .error GoPanic.emptyStack ∧
     (Stree.mk 0 none [] 0 0).Query 0 0 = .error GoPanic.noRoot ∧
     (Stree.mk 0 none [] 0 0).QueryArray [] = .error GoPanic.noRoot ∧
     (Mtree.mk 0 none [] 0 0 false).BuildTree = .error GoPanic.emptyStack ∧
     (Mtree.mk 0 none [] 0 0 false).Query 0 0 = .error GoPanic.noRoot ∧
     (Mtree.mk 0 none [] 0 0 false).QueryArray [] = .error GoPanic.noRoot) :=
  ⟨rfl, rfl, rfl, rfl,
   claim7_preconditions (Stree.mk 0 none [] 0 0) (Stree.mk 0 none [] 0 0)
     (Mtree.mk 0 none [] 0 0 false) (Mtree.mk 0 none [] 0 0 false) 0 0 []
     rfl rfl rfl rfl⟩

/-- C9: Query and QueryArray never mutate the tree or any other field of
the structure, for the sequential stree and for the parallel mtree: when a
root exists, each of the four operations returns its collected result
together with a post-call state equal to the pre-call state (root node
graph, staging buffer, id counter, cached min/max — and for the mtree the
fallback flag — all unchanged). -/
theorem claim9_query_immutable (s : Stree) (rt : tree) (m : Mtree) (mrt : tree)
    (a b : Int) (qs : List (Int × Int)) (h : s.root = some rt)
    (hm : m.root = some mrt) :
    s.Query a b = .ok ((querySingleSt rt a b).1, s) ∧
    s.QueryArray qs = .ok ((queryMultiSt rt qs).1, s) ∧
    m.Query a b = .ok ((mquerySingleSt mrt a b).1, m) ∧
    m.QueryArray qs = .ok ((mqueryMultiSt mrt qs).1, m) := by
  have hs : ∀ u : Option tree, u = s.root → { s with root := u } = s := by
    intro u hu; cases s; simpa using hu
  have hms : ∀ u : Option tree, u = m.root → { m with root := u } = m := by
    intro u hu; cases m; simpa using hu
  refine ⟨?_, ?_, ?_, ?_⟩
  · simp only [Stree.Query, h]
    rw [querySingleSt_tree, hs (some rt) h.symm]
  · simp only [Stree.QueryArray, h]
    rw [queryMultiSt_tree, hs (some rt) h.symm]
  · simp only [Mtree.Query, hm]
    rw [mquerySingleSt_tree, hms (some mrt) hm.symm]
  · simp only [Mtree.QueryArray, hm]
    rw [mqueryMultiSt_tree, hms (some mrt) hm.symm]

theorem claim9_witness :
    (Stree.mk 1 (some (tree.node ⟨0, 0⟩ .nil .nil [])) [⟨0, ⟨0, 0⟩⟩] 0 0).root =
      some (tree.node ⟨0, 0⟩ .nil .nil []) ∧
    (Mtree.mk 1 (some (tree.node ⟨0, 0⟩ .nil .nil [])) [⟨0, ⟨0, 0⟩⟩] 0 0 true).root =
      some (tree.node ⟨0, 0⟩ .nil .nil []) ∧
    ((Stree.mk 1 (some (tree.node ⟨0, 0⟩ .nil .nil [])) [⟨0, ⟨0, 0⟩⟩] 0 0).Query 0 0 =
      .ok ((querySingleSt (tree.node ⟨0, 0⟩ .nil .nil []) 0 0).1,
        Stree.mk 1 (some (tree.node ⟨0, 0⟩ .nil .nil [])) [⟨0, ⟨0, 0⟩⟩] 0 0) ∧
     (Stree.mk 1 (some (tree.node ⟨0, 0⟩ .nil .nil [])) [⟨0, ⟨0, 0⟩⟩] 0 0).QueryArray [] =
      .ok ((queryMultiSt (tree.node ⟨0, 0⟩ .nil .nil []) []).1,
        Stree.mk 1 (some (tree.node ⟨0, 0⟩ .nil .nil [])) [⟨0, ⟨0, 0⟩⟩] 0 0) ∧
     (Mtree.mk 1 (some (tree.node ⟨0, 0⟩ .nil .nil [])) [⟨0, ⟨0, 0⟩⟩] 0 0 true).Query 0 0 =
      .ok ((mquerySingleSt (tree.node ⟨0, 0⟩ .nil .nil []) 0 0).1,
        Mtree.mk 1 (some (tree.node ⟨0, 0⟩ .nil .nil [])) [⟨0, ⟨0, 0⟩⟩] 0 0 true) ∧
     (Mtree.mk 1 (some (tree.node ⟨0, 0⟩ .nil .nil [])) [⟨0, ⟨0, 0⟩⟩] 0 0 true).QueryArray
        [] =
      .ok ((mqueryMultiSt (tree.node ⟨0, 0⟩ .nil .nil []) []).1,
        Mtree.mk 1 (some (tree.node ⟨0, 0⟩ .nil .nil [])) [⟨0, ⟨0, 0⟩⟩] 0 0 true)) :=
  ⟨rfl, rfl, claim9_query_immutable _ _ _ _ 0 0 [] rfl rfl⟩

/-- C10: the serial oracle rejects the tree lifecycle — BuildTree, Print
and Tree2Array always fail with the not-supported panics — while Query and
QueryArray succeed with no prior build by scanning the staged list, and
QueryArray concatenates per-range results without id deduplication, so the
same interval can be returned twice: with the single staged interval
(1,5), the ranges (0,2) and (4,6) both hit it and the result holds id 0
twice. -/
theorem claim10_serial_contract (s : Serial) (a b : Int) (qs : List (Int × Int)) :
    s.BuildTree = .error GoPanic.buildNotSupported ∧
    s.Print = .error GoPanic.printNotSupported ∧
    s.Tree2Array = .error GoPanic.tree2ArrayNotSupported ∧
    s.Query a b = .ok (serialQuery s.base a b) ∧
    s.QueryArray qs = .ok (serialQueryArray s.base qs) ∧
    serialQueryArray (stage [(1, 5)]) [(0, 2), (4, 6)] =
      [⟨0, ⟨1, 5⟩⟩, ⟨0, ⟨1, 5⟩⟩] :=
  ⟨rfl, rfl, rfl, rfl, rfl, by decide⟩

end GoStree
